import Mathlib

/-!
# Verification of the RFQ spreadsheet analyzer

Shallow embedding of the RFQ parsing, persistence-filter, subset-award
optimizer and historical-estimator code (src/rfq_parser.py, src/rfq_db.py,
src/rfq_app.py), together with theorems settling the frozen claims.

Modelling conventions:
* Spreadsheet cell text is represented as `List Char`; Python `str` methods
  are embedded as functions on `List Char`.
* Numeric cell values and prices are represented as `ℚ`.  The Python code
  uses binary floating point; every claim settled here only compares sums,
  minima and ratios of small decimal inputs, where float and exact rational
  arithmetic order identically, so `ℚ` is the faithful idealisation.
* Numeric cells are modelled with integer values (`Cell.num : Int`), which
  is the case the claims exercise; `str` of an integer cell is embedded
  exactly.
* Python dicts that the code updates in place are embedded as association
  lists with insert-or-overwrite semantics.
-/

namespace RFQ

/-- Convenience: the character list of a string literal. -/
def cs (s : String) : List Char := s.data

/-- Python `str.lower()` (ASCII range, which is all the code compares). -/
def lowerCL (s : List Char) : List Char := s.map Char.toLower

/-- Python `str.upper()` (ASCII range). -/
def upperCL (s : List Char) : List Char := s.map Char.toUpper

/-- Python `str.strip()`: drop leading and trailing whitespace. -/
def trimCL (s : List Char) : List Char :=
  ((s.dropWhile Char.isWhitespace).reverse.dropWhile Char.isWhitespace).reverse

/-- Membership of a character in a character list (Python `c in s`). -/
def hasChar (c : Char) (s : List Char) : Bool := s.contains c

/-- Python `needle in haystack` substring test. -/
def containsCL (needle : List Char) : List Char → Bool
  | [] => needle.isEmpty
  | c :: rest => needle.isPrefixOf (c :: rest) || containsCL needle rest

/-- Python `s.endswith(t)`. -/
def endsWithCL (t s : List Char) : Bool := List.isSuffixOf t s

/-- Python `s.startswith(t)`. -/
def startsWithCL (t s : List Char) : Bool := List.isPrefixOf t s

/-- Python `s.rstrip("_")`-style: drop trailing occurrences of one char. -/
def rstripChar (c : Char) (s : List Char) : List Char :=
  (s.reverse.dropWhile (· = c)).reverse

/-- Python `s.replace(a, b)` for single characters. -/
def replaceChar (a b : Char) (s : List Char) : List Char :=
  s.map (fun c => if c = a then b else c)

/-- Python `s.replace(a, "")` for a single character: delete it. -/
def deleteChar (a : Char) (s : List Char) : List Char :=
  s.filter (fun c => c ≠ a)

/-- Python `s.split()` with no argument: split on whitespace runs,
dropping empty fields. -/
def splitWs (s : List Char) : List (List Char) :=
  (s.splitOnP Char.isWhitespace).filter (fun w => w ≠ [])

/-- The part of `s` after the last occurrence of `c`
(Python `s.rsplit(c, 1)[-1]`; the whole string when `c` is absent). -/
def afterLastChar (c : Char) (s : List Char) : List Char :=
  ((s.reverse.takeWhile (· ≠ c))).reverse

/-- Decimal digit characters of a natural number (helper, fuel-based so it
reduces definitionally). -/
def natCharsAux : ℕ → ℕ → List Char
  | 0, _ => []
  | fuel + 1, n =>
    if n < 10 then [Char.ofNat (48 + n)]
    else natCharsAux fuel (n / 10) ++ [Char.ofNat (48 + n % 10)]

/-- Decimal digits of a natural number, as Python `str` renders it. -/
def natChars (n : ℕ) : List Char := natCharsAux (n + 1) n

/-- Python `str` of an integer. -/
def intChars (i : Int) : List Char :=
  if i < 0 then '-' :: natChars i.natAbs else natChars i.natAbs

/-- A spreadsheet cell as `openpyxl` delivers it: empty (`None`), a string,
or a number.  Integer-valued numeric cells cover every numeric case the
claims exercise. -/
inductive Cell where
  | none
  | str (s : List Char)
  | num (n : Int)
  deriving DecidableEq, Repr

/-- Python truthiness of a cell value (`None`, `""` and `0` are falsy). -/
def Cell.truthy : Cell → Bool
  | .none => false
  | .str s => s ≠ []
  | .num n => n ≠ 0

/-- Python `str(val)` of a cell (only called on non-`None` cells by the
source, but total here: `None` renders as "None" exactly as Python would). -/
def Cell.pyStr : Cell → List Char
  | .none => cs "None"
  | .str s => s
  | .num n => intChars n

/-- `_norm`: normalise a cell value to a lower-stripped string,
or `""` if `None`. -/
def norm : Cell → List Char
  | .none => []
  | c => lowerCL (trimCL c.pyStr)

/-- A row of the spreadsheet grid. -/
abbrev Row := List Cell

-- ---------------------------------------------------------------------------
-- Synonym sets (module constants of rfq_parser.py, all lowercased)
-- ---------------------------------------------------------------------------

def UNIT_PRICE_SYNONYMS : List (List Char) :=
  [cs "unit price", cs "unit cost", cs "unit_price", cs "unit_cost", cs "unitprice"]

def EXT_PRICE_SYNONYMS : List (List Char) :=
  [cs "total price", cs "ext. price", cs "ext price", cs "extended price",
   cs "ext. cost", cs "ext cost", cs "extended cost", cs "total_price",
   cs "ext_price", cs "ext_cost", cs "totalprice", cs "extprice"]

def ITEM_NUM_SYNONYMS : List (List Char) :=
  [cs "item #", cs "item#", cs "item no", cs "item no.", cs "item number",
   cs "line no", cs "line no."]

def DESC_SYNONYMS : List (List Char) := [cs "description", cs "desc"]

def UNIT_SYNONYMS : List (List Char) :=
  [cs "unit", cs "units", cs "unit of measure", cs "uom"]

def QTY_SYNONYMS : List (List Char) :=
  [cs "qty quoted", cs "qty", cs "quantity", cs "units quoted"]

def SIZE_SYNONYMS : List (List Char) := [cs "size"]

/-- `_matches` (the name `matches` itself is reserved in Lean): does the
normalised cell text equal one of the synonyms? -/
def matchesSyn (c : Cell) (synonyms : List (List Char)) : Bool :=
  synonyms.contains (norm c)

-- ---------------------------------------------------------------------------
-- Header locator (`_find_header_row`)
-- ---------------------------------------------------------------------------

/-- Does a row qualify as the column-header row: contains an item-number-like
cell AND a description-like cell? -/
def headerQualifies (row : Row) : Bool :=
  (row.any (fun c => matchesSyn c ITEM_NUM_SYNONYMS)) &&
  (row.any (fun c => matchesSyn c DESC_SYNONYMS))

/-- Scan a list of rows, returning the index (offset by `start`) and values
of the first qualifying row. -/
def findHeaderAux (start : ℕ) : List Row → Option (ℕ × Row)
  | [] => Option.none
  | r :: rest =>
    if headerQualifies r then some (start, r) else findHeaderAux (start + 1) rest

/-- `_find_header_row`: first qualifying row among the first 15 rows,
or `none` ("not found"). -/
def find_header_row (rows : List Row) : Option (ℕ × Row) :=
  findHeaderAux 0 (rows.take 15)

-- ---------------------------------------------------------------------------
-- Format classifier (`_detect_format_b`)
-- ---------------------------------------------------------------------------

/-- Python `syn.replace(" ", "_")`. -/
def underJoin (syn : List Char) : List Char := replaceChar ' ' '_' syn

/-- Join a list of words with single spaces (Python `" ".join(ws)`). -/
def joinSpace (ws : List (List Char)) : List Char := List.intercalate [' '] ws

/-- The last `n` elements of a list (Python `ws[-n:]`). -/
def lastN (n : ℕ) (l : List (List Char)) : List (List Char) :=
  l.drop (l.length - n)

/-- Does `s` contain `a` followed by at most one arbitrary character followed
by `b`, starting exactly at the front?  This is the regex fragment
`a.?b` anchored at the current position (`.` of `re` excludes a newline;
no header cell the code meets contains one). -/
def pairAt (a b s : List Char) : Bool :=
  a.isPrefixOf s &&
    (let t := s.drop a.length
     b.isPrefixOf t ||
       (match t with
        | [] => false
        | _ :: t2 => b.isPrefixOf t2))

/-- `re.search` of the fragment `a.?b` anywhere in `s`. -/
def pairSearch (a b : List Char) : List Char → Bool
  | [] => pairAt a b []
  | c :: rest => pairAt a b (c :: rest) || pairSearch a b rest

/-- `re.search(r"(unit.?price|unit.?cost|total.?price|ext.?price|ext.?cost)", s)`
as a Boolean. -/
def priceRegexSearch (s : List Char) : Bool :=
  pairSearch (cs "unit") (cs "price") s || pairSearch (cs "unit") (cs "cost") s ||
  pairSearch (cs "total") (cs "price") s || pairSearch (cs "ext") (cs "price") s ||
  pairSearch (cs "ext") (cs "cost") s

/-- The member list of the underscore-detection branch of `_detect_format_b`
(some members can never equal an `rsplit("_", 1)` tail, faithfully kept). -/
def DETECT_RSPLIT_SET : List (List Char) :=
  [cs "unit_price", cs "unit price", cs "total_price", cs "total price",
   cs "unit_cost", cs "ext_price", cs "ext_cost", cs "unit cost", cs "ext cost"]

/-- First loop of `_detect_format_b`: underscore-separated detection. -/
def detectB1 (h : Cell) : Bool :=
  let s := norm h
  s ≠ [] && hasChar '_' s &&
    (DETECT_RSPLIT_SET.contains (afterLastChar '_' s) || priceRegexSearch s)

/-- Character class `[A-Z0-9\-]` under `re.IGNORECASE`. -/
def b2Class (c : Char) : Bool := c.isAlpha || c.isDigit || c = '-'

/-- After the `_`, one of the five uppercase keywords must follow
(`re.match` only anchors the start, so trailing text is allowed). -/
def b2KwTest (rest : List Char) : Bool :=
  let r := lowerCL rest
  (cs "unit_price").isPrefixOf r || (cs "total_price").isPrefixOf r ||
  (cs "unit_cost").isPrefixOf r || (cs "ext_cost").isPrefixOf r ||
  (cs "ext_price").isPrefixOf r

/-- Scanner for `[A-Z0-9\-]+_` after the leading letter: `consumed` counts
class characters already eaten; `_` is not in the class, so the first
non-class character must be the literal `_`. -/
def b2Scan : List Char → ℕ → Bool
  | [], _ => false
  | c :: rest, consumed =>
    if b2Class c then b2Scan rest (consumed + 1)
    else if c = '_' then decide (1 ≤ consumed) && b2KwTest rest
    else false

/-- Second loop of `_detect_format_b`:
`re.match(r"^[A-Z][A-Z0-9\-]+_(UNIT_PRICE|TOTAL_PRICE|UNIT_COST|EXT_COST|EXT_PRICE)", s, re.IGNORECASE)`
on `str(h).strip() if h else ""`. -/
def detectB2 (h : Cell) : Bool :=
  let s := if h.truthy then trimCL h.pyStr else []
  match s with
  | [] => false
  | c0 :: rest => c0.isAlpha && b2Scan rest 0

/-- `_PRICE_ENDINGS_2W` of `_detect_format_b`. -/
def PRICE_ENDINGS_2W : List (List Char) :=
  [cs "unit price", cs "unit cost", cs "total price",
   cs "ext price", cs "ext. price", cs "extended price",
   cs "ext cost", cs "ext. cost", cs "extended cost"]

/-- Third loop of `_detect_format_b`: space-separated detection
("BIDDER UNIT PRICE", including the `EXT> PRICE` typo). -/
def detectB3 (h : Cell) : Bool :=
  if !h.truthy then false
  else
    let words := splitWs (replaceChar '>' '.' (lowerCL (trimCL h.pyStr)))
    decide (3 ≤ words.length) && PRICE_ENDINGS_2W.contains (joinSpace (lastN 2 words))

/-- `_detect_format_b`: three sequential loops over the header cells, each
returning `True` on its first hit. -/
def detect_format_b (header_cols : Row) : Bool :=
  header_cols.any detectB1 || header_cols.any detectB2 || header_cols.any detectB3

-- ---------------------------------------------------------------------------
-- Compound-header extractor (`_parse_format_b`)
-- ---------------------------------------------------------------------------

/-- Column role of a bidder price column. -/
inductive Field where
  | unit_price
  | ext_price
  deriving DecidableEq, Repr

/-- Per-bidder column map (`{unit_price: col, ext_price: col}`). -/
structure BCols where
  unit_price : Option ℕ := Option.none
  ext_price : Option ℕ := Option.none
  deriving DecidableEq, Repr

def BCols.set (b : BCols) : Field → ℕ → BCols
  | .unit_price, col => { b with unit_price := some col }
  | .ext_price, col => { b with ext_price := some col }

def BCols.get (b : BCols) : Field → Option ℕ
  | .unit_price => b.unit_price
  | .ext_price => b.ext_price

/-- `bidder_map`: insertion-ordered dict bidderName → BCols. -/
abbrev BidderMap := List (List Char × BCols)

/-- `bidder_map[name][field] = col` with dict insert-or-overwrite semantics. -/
def updateBidder : BidderMap → List Char → Field → ℕ → BidderMap
  | [], name, f, col => [(name, BCols.set {} f col)]
  | (n, b) :: rest, name, f, col =>
    if n = name then (n, b.set f col) :: rest
    else (n, b) :: updateBidder rest name f col

/-- `rfq_map`: logical-role → column index. -/
structure RfqMap where
  item_num : Option ℕ := Option.none
  description : Option ℕ := Option.none
  unit : Option ℕ := Option.none
  quantity : Option ℕ := Option.none
  size : Option ℕ := Option.none
  deriving DecidableEq, Repr

/-- The RFQ-column `elif` chain shared by both extractors. -/
def rfqStep (m : RfqMap) (h : Cell) (i : ℕ) : RfqMap :=
  if matchesSyn h ITEM_NUM_SYNONYMS then { m with item_num := some i }
  else if matchesSyn h DESC_SYNONYMS then { m with description := some i }
  else if matchesSyn h UNIT_SYNONYMS then { m with unit := some i }
  else if matchesSyn h QTY_SYNONYMS then { m with quantity := some i }
  else if matchesSyn h SIZE_SYNONYMS then { m with size := some i }
  else m

/-- Unit-price synonym test of `_parse_format_b` branch (a):
`s_low.endswith("_" + syn_under) or s_low.endswith("_" + syn)`. -/
def unitSynHit (s_low syn : List Char) : Bool :=
  endsWithCL ('_' :: underJoin syn) s_low || endsWithCL ('_' :: syn) s_low

/-- Ext-price synonym test of `_parse_format_b` branch (a), on the
dot-stripped space-to-underscore form. -/
def extSynHit (s_test syn : List Char) : Bool :=
  endsWithCL ('_' :: deleteChar '.' (underJoin syn)) s_test

/-- The prefix candidate: `s[:-(len(syn_under)+1)].rstrip("_").upper()`. -/
def bidderCandidate (s : List Char) (synUnderLen : ℕ) : List Char :=
  upperCL (rstripChar '_' (s.take (s.length - (synUnderLen + 1))))

/-- Unit-synonym loop of `_parse_format_b` branch (a) for one cell: exact
synonym-suffix match.  The source iterates a Python set here; every synonym
that can match a given cell yields the same `(candidate, field)` (all
simultaneously-matching synonyms have underscore-joined forms of equal
length), so a fixed iteration order is faithful. -/
def compoundSynUnit (s : List Char) : Option (List Char × Field) :=
  match UNIT_PRICE_SYNONYMS.find? (fun syn => unitSynHit (lowerCL s) syn) with
  | some syn => some (bidderCandidate s (underJoin syn).length, Field.unit_price)
  | Option.none => Option.none

/-- Ext-synonym loop of `_parse_format_b` branch (a): suffix match on the
dot-stripped space-to-underscore form `s_test`; the same
set-iteration-order argument applies (simultaneously-matching synonyms
have dot-stripped underscore-joined forms of equal length). -/
def compoundSynExt (s : List Char) : Option (List Char × Field) :=
  match EXT_PRICE_SYNONYMS.find? (fun syn =>
      extSynHit (replaceChar ' ' '_' (deleteChar '.' (lowerCL s))) syn) with
  | some syn =>
    some (bidderCandidate s (deleteChar '.' (underJoin syn)).length, Field.ext_price)
  | Option.none => Option.none

/-- Does `t` equal `a`, an optional single character, then `b` — the whole of
the regex group `A.?B` anchored on both sides? -/
def rxFull (a b t : List Char) : Bool :=
  a.isPrefixOf t &&
    (let r := t.drop a.length
     r = b || (match r with | [] => false | _ :: r2 => r2 = b))

/-- Is `tail` (after lowercasing) in the language of
`(UNIT.?PRICE|UNIT.?COST|TOTAL.?PRICE|EXT.?PRICE|EXT.?COST)$`? -/
def rxSuffixHit (tail : List Char) : Bool :=
  let t := lowerCL tail
  rxFull (cs "unit") (cs "price") t || rxFull (cs "unit") (cs "cost") t ||
  rxFull (cs "total") (cs "price") t || rxFull (cs "ext") (cs "price") t ||
  rxFull (cs "ext") (cs "cost") t

/-- Role decision of the regex fallback: `unit_price` when the lowercased
suffix has "unit" or "cost" but neither "total" nor "ext", else `ext_price`. -/
def rxRole (field_raw : List Char) : Field :=
  if (containsCL (cs "unit") field_raw || containsCL (cs "cost") field_raw) &&
      !containsCL (cs "total") field_raw && !containsCL (cs "ext") field_raw
  then Field.unit_price else Field.ext_price

/-- Lazy scan for `^(.+?)_(…)$`: the first `_` split whose tail matches the
alternation wins; `pre` holds the reversed prefix so far. -/
def rxScan (pre : List Char) : List Char → Option (List Char × Field)
  | [] => Option.none
  | c :: rest =>
    if c = '_' && pre ≠ [] && rxSuffixHit rest then
      some (upperCL pre.reverse, rxRole (lowerCL rest))
    else rxScan (c :: pre) rest

/-- Regex fallback branch of `_parse_format_b`:
`re.match(r"^(.+?)_(UNIT.?PRICE|UNIT.?COST|TOTAL.?PRICE|EXT.?PRICE|EXT.?COST)$", s, re.IGNORECASE)`. -/
def compoundRxBranch (s : List Char) : Option (List Char × Field) := rxScan [] s

/-- Space-separated fallback branch of `_parse_format_b` (also handles the
`EXT> PRICE` typo): note only `words[0]` becomes the bidder. -/
def compoundSpaceBranch (s : List Char) : Option (List Char × Field) :=
  let words := splitWs (replaceChar '>' '.' s)
  if 3 ≤ words.length then
    let last_two := lowerCL (joinSpace (lastN 2 words))
    if [cs "unit price", cs "unit cost"].contains last_two then
      some (upperCL (words.headD []), Field.unit_price)
    else if [cs "total price", cs "ext price", cs "ext. price",
             cs "extended price", cs "ext cost", cs "ext. cost",
             cs "extended cost"].contains last_two then
      some (upperCL (words.headD []), Field.ext_price)
    else Option.none
  else Option.none

/-- Python truthiness of `matched_bidder`: `None` and an empty candidate
string are both falsy, so a branch that produced an empty prefix does not
stop the fallback chain (the `if not matched_bidder:` gates), and an empty
final candidate fails `if matched_bidder and matched_field:` and falls
through to the RFQ-column chain. -/
def candTruthy : Option (List Char × Field) → Bool
  | some bf => !bf.1.isEmpty
  | Option.none => false

/-- The per-cell compound-header extractor of `_parse_format_b`:
the four branches in source order on `s = str(h).strip()`, each later
branch gated on the falsiness of every earlier branch's candidate. -/
def cellCompound (s : List Char) : Option (List Char × Field) :=
  if candTruthy (compoundSynUnit s) then compoundSynUnit s
  else if candTruthy (compoundSynExt s) then compoundSynExt s
  else if candTruthy (compoundRxBranch s) then compoundRxBranch s
  else if candTruthy (compoundSpaceBranch s) then compoundSpaceBranch s
  else Option.none

/-- `_parse_format_b` (its `rows`/`header_idx` arguments are unused by the
source body and omitted): builds `(rfq_map, bidder_map)` from the header. -/
def parse_format_b (header_cols : Row) : RfqMap × BidderMap :=
  header_cols.enum.foldl
    (fun maps ic =>
      match ic.2 with
      | Cell.none => maps
      | h =>
        match cellCompound (trimCL h.pyStr) with
        | some (bidder, field) => (maps.1, updateBidder maps.2 bidder field ic.1)
        | Option.none => (rfqStep maps.1 h ic.1, maps.2))
    ({}, [])

-- ---------------------------------------------------------------------------
-- Bidder-row extractor (`_find_bidder_names_above`, `_parse_format_ac`)
-- ---------------------------------------------------------------------------

/-- `SKIP_WORDS` of `_find_bidder_names_above`. -/
def SKIP_WORDS : List (List Char) :=
  [cs "rfq", cs "none", cs "delivery", cs "weeks", cs "manufacturer",
   cs "comments", cs "vendor comments", cs "unit price", cs "total price"]

/-- Character class of the phone-like pattern `^[\d\s\.\-\(\)\+]+$`. -/
def phoneChar (c : Char) : Bool :=
  c.isDigit || c.isWhitespace || c = '.' || c = '-' || c = '(' || c = ')' || c = '+'

/-- Phone-like test (the `+` needs a non-empty string; callers pass one). -/
def phoneLike (s : List Char) : Bool := s ≠ [] && s.all phoneChar

/-- Qualifying bidder-name candidates of one row: `{col_index: NAME}`. -/
def bidderRowCandidates (row : Row) : List (ℕ × List Char) :=
  row.enum.filterMap (fun iv =>
    match iv.2 with
    | Cell.none => Option.none
    | v =>
      let s := trimCL v.pyStr
      if s = [] || 50 < s.length then Option.none
      else if SKIP_WORDS.contains (lowerCL s) then Option.none
      else if phoneLike s then Option.none
      else if hasChar '@' s then Option.none
      else if 4 < (splitWs s).length then Option.none
      else some (iv.1, upperCL s))

/-- `_find_bidder_names_above`: among rows strictly above the header with at
least two qualifying cells, keep the one whose candidates have the smallest
average length (the source compares `score = 1.0 / avg_len` with strict `>`,
which over positive rationals is exactly `avg < best_avg`, first row winning
ties). -/
def find_bidder_names_above (rows : List Row) (header_idx : ℕ) :
    List (ℕ × List Char) :=
  let step := fun (acc : List (ℕ × List Char) × Option ℚ) (row : Row) =>
    let cands := bidderRowCandidates row
    if 2 ≤ cands.length then
      let avg : ℚ := (cands.foldl (fun t c => t + c.2.length) 0 : ℕ) / cands.length
      match acc.2 with
      | Option.none => (cands, some avg)
      | some best => if avg < best then (cands, some avg) else acc
    else acc
  ((rows.take header_idx).foldl step ([], Option.none)).1

/-- Step 2 of `_parse_format_ac`: classify header columns into RFQ roles and
price-column roles (`col_roles`). -/
def parse_ac_cols (header_cols : Row) : RfqMap × List (ℕ × Field) :=
  header_cols.enum.foldl
    (fun st ic =>
      match ic.2 with
      | Cell.none => st
      | h =>
        if matchesSyn h ITEM_NUM_SYNONYMS then ({ st.1 with item_num := some ic.1 }, st.2)
        else if matchesSyn h DESC_SYNONYMS then ({ st.1 with description := some ic.1 }, st.2)
        else if matchesSyn h UNIT_SYNONYMS then ({ st.1 with unit := some ic.1 }, st.2)
        else if matchesSyn h QTY_SYNONYMS then ({ st.1 with quantity := some ic.1 }, st.2)
        else if matchesSyn h SIZE_SYNONYMS then ({ st.1 with size := some ic.1 }, st.2)
        else if UNIT_PRICE_SYNONYMS.contains (norm h) then
          (st.1, st.2 ++ [(ic.1, Field.unit_price)])
        else if EXT_PRICE_SYNONYMS.contains (norm h) then
          (st.1, st.2 ++ [(ic.1, Field.ext_price)])
        else st)
    ({}, [])

/-- The loop body of `_bidder_for_col`: walk the sorted column list, keeping
the last column `≤ col` and stopping at the first larger one. -/
def owner_scan : List ℕ → ℕ → Option ℕ → Option ℕ
  | [], _, cur => cur
  | bc :: rest, col, cur => if bc ≤ col then owner_scan rest col (some bc) else cur

/-- `_bidder_for_col` over the bidder-name columns. -/
def bidder_for_col (bn : List (ℕ × List Char)) (col : ℕ) : Option (List Char) :=
  let sortedCols := (bn.map Prod.fst).insertionSort (· ≤ ·)
  (owner_scan sortedCols col Option.none).bind (fun bc => bn.lookup bc)

/-- The body of the price-column assignment loop of `_parse_format_ac`
(`if name: bidder_map[name][role] = col_i`, with Python truthiness on the
name). -/
def acStep (bn : List (ℕ × List Char)) (bm : BidderMap) (cr : ℕ × Field) :
    BidderMap :=
  match bidder_for_col bn cr.1 with
  | some n => if n ≠ [] then updateBidder bm n cr.2 cr.1 else bm
  | Option.none => bm

/-- `_parse_format_ac`: bidder names row above the header, header roles, and
nearest-bidder-to-the-left assignment of the price columns. -/
def parse_format_ac (rows : List Row) (header_idx : ℕ) (header_cols : Row) :
    RfqMap × BidderMap :=
  let bn := find_bidder_names_above rows header_idx
  let st := parse_ac_cols header_cols
  (st.1, st.2.foldl (acStep bn) [])

-- ---------------------------------------------------------------------------
-- Item row extraction (`_extract_type_spec`, `_is_data_row`, `_safe_float`)
-- ---------------------------------------------------------------------------

/-- `_extract_type_spec`: split a description cell into
(item type, specification); comma first, then whitespace (the unused
`size_val` argument of the source is omitted). -/
def extract_type_spec (description : Cell) : List Char × List Char :=
  if !description.truthy then ([], [])
  else
    let d := trimCL description.pyStr
    if hasChar ',' d then
      let t := d.takeWhile (· ≠ ',')
      let r := (d.dropWhile (· ≠ ',')).drop 1
      (upperCL (trimCL t), trimCL r)
    else
      let t := d.takeWhile (fun c => !c.isWhitespace)
      let r := (d.dropWhile (fun c => !c.isWhitespace)).dropWhile Char.isWhitespace
      (if t = [] then [] else upperCL (trimCL t), trimCL r)

/-- `_is_data_row`: the row has an in-bounds item-number cell whose stripped
string is non-empty and under 20 characters. -/
def is_data_row (row : Row) (m : RfqMap) : Bool :=
  match m.item_num with
  | Option.none => false
  | some col =>
    if row.length ≤ col then false
    else
      match row.getD col Cell.none with
      | Cell.none => false
      | v =>
        let s := trimCL v.pyStr
        s ≠ [] && s.length < 20

/-- Value of an unsigned decimal literal `digits[.digits]` (at least one
digit overall), else `none`. -/
def parseUnsigned (s : List Char) : Option ℚ :=
  let a := s.takeWhile Char.isDigit
  let natOf := fun (ds : List Char) => ds.foldl (fun n c => 10 * n + (c.toNat - 48)) 0
  match s.drop a.length with
  | [] => if a = [] then Option.none else some (natOf a : ℕ)
  | '.' :: b =>
    if b.all Char.isDigit && (a ≠ [] || b ≠ []) then
      some ((natOf a : ℕ) + (natOf b : ℕ) / ((10 : ℚ) ^ b.length))
    else Option.none
  | _ => Option.none

/-- Python `float(str)` on the decimal forms the spreadsheets contain
(exponent, `inf`/`nan` spellings are not exercised by any claim and yield
`none` here). -/
def pyFloatOfChars (s0 : List Char) : Option ℚ :=
  match trimCL s0 with
  | '+' :: r => parseUnsigned r
  | '-' :: r => (parseUnsigned r).map Neg.neg
  | r => parseUnsigned r

/-- `_safe_float`: tolerant numeric coercion, stripping `,` and `$` on a
second attempt, `none` on irrecoverable input. -/
def safe_float : Cell → Option ℚ
  | Cell.none => Option.none
  | Cell.num n => some (n : ℚ)
  | Cell.str s =>
    match pyFloatOfChars s with
    | some q => some q
    | Option.none => pyFloatOfChars (trimCL (deleteChar '$' (deleteChar ',' s)))

-- ---------------------------------------------------------------------------
-- `parse_excel` (grid part) and sheet selection
-- ---------------------------------------------------------------------------

/-- One bid cell pair of an item. -/
structure BidValue where
  unit_price : Option ℚ := Option.none
  ext_price : Option ℚ := Option.none
  deriving DecidableEq, Repr

/-- One parsed line item. -/
structure ParsedItem where
  item_number : List Char
  item_type : List Char
  specification : List Char
  size : Option (List Char)
  unit : Option (List Char)
  quantity : Option ℚ
  bids : List (List Char × BidValue)
  deriving DecidableEq, Repr

/-- The parse result dict of `parse_excel` on success. -/
structure ParsedWorkbook where
  format : List Char
  sheet : List Char
  bidders : List (List Char)
  items : List ParsedItem
  ambiguities : List (List Char)
  rfq_map : RfqMap
  deriving DecidableEq, Repr

/-- `parse_excel` either returns an `{"error": …, "sheet": …}` dict or the
full parse dict. -/
inductive ParseResult where
  | error (msg : List Char) (sheet : List Char)
  | ok (pw : ParsedWorkbook)
  deriving DecidableEq, Repr

/-- The `_cell` helper of the data-row loop: mapped cell or `None` when
unmapped or out of row bounds. -/
def cellAt (row : Row) (col? : Option ℕ) : Cell :=
  match col? with
  | some c => if c < row.length then row.getD c Cell.none else Cell.none
  | Option.none => Cell.none

/-- Bid map of one data row: every bidder of `bidder_map` gets an entry
(both fields may be `none`). -/
def buildBids (row : Row) (bm : BidderMap) : List (List Char × BidValue) :=
  bm.map (fun nb =>
    (nb.1,
     { unit_price :=
         match nb.2.unit_price with
         | some c => if c < row.length then safe_float (row.getD c Cell.none) else Option.none
         | Option.none => Option.none
       ext_price :=
         match nb.2.ext_price with
         | some c => if c < row.length then safe_float (row.getD c Cell.none) else Option.none
         | Option.none => Option.none }))

/-- One parsed item from a data row (the body of the `for row in rows[...]`
loop of `parse_excel` after `_is_data_row` passed). -/
def buildItem (row : Row) (m : RfqMap) (bm : BidderMap) : ParsedItem :=
  let raw_desc := cellAt row m.description
  let raw_size := cellAt row m.size
  let raw_unit := cellAt row m.unit
  let raw_qty := cellAt row m.quantity
  let raw_item := cellAt row m.item_num
  let ts := extract_type_spec raw_desc
  { item_number := if raw_item.truthy then trimCL raw_item.pyStr else []
    item_type := ts.1
    specification := ts.2
    size := if raw_size.truthy then some (trimCL raw_size.pyStr) else Option.none
    unit := if raw_unit.truthy then some (upperCL (trimCL raw_unit.pyStr)) else Option.none
    quantity := safe_float raw_qty
    bids := buildBids row bm }

/-- Lexicographic string comparison as Python `sorted` uses on `str`. -/
def strLe : List Char → List Char → Bool
  | [], _ => true
  | _ :: _, [] => false
  | a :: as_, b :: bs => if a < b then true else if b < a then false else strLe as_ bs

/-- `sorted(bidder_map.keys())`. -/
def sortStrs (l : List (List Char)) : List (List Char) :=
  l.insertionSort (fun a b => strLe a b)

/-- `parse_excel` from the point where the grid of the chosen sheet is in
hand (`rows = [list(r) for r in ws.iter_rows(values_only=True)]`). -/
def parse_grid (sheet : List Char) (rows : List Row) : ParseResult :=
  if rows = [] then ParseResult.error (cs "Sheet is empty") sheet
  else
    match find_header_row rows with
    | Option.none => ParseResult.error (cs "Could not locate column header row") sheet
    | some (header_idx, header_cols) =>
      let fmtB := detect_format_b header_cols
      let maps :=
        if fmtB then parse_format_b header_cols
        else parse_format_ac rows header_idx header_cols
      let ambiguities :=
        (if maps.2 = [] then [cs "No bidders detected automatically."] else []) ++
        (if maps.1.item_num = Option.none then [cs "Could not locate Item # column."] else []) ++
        (if maps.1.description = Option.none then [cs "Could not locate Description column."] else [])
      let items := (rows.drop (header_idx + 1)).filterMap
        (fun row => if is_data_row row maps.1 then some (buildItem row maps.1 maps.2) else Option.none)
      ParseResult.ok
        { format := if fmtB then cs "B" else cs "AC"
          sheet := sheet
          bidders := sortStrs (maps.2.map Prod.fst)
          items := items
          ambiguities := ambiguities
          rfq_map := maps.1 }

/-- `skip_keywords` of the sheet-selection loop of `parse_excel`. -/
def SKIP_KEYWORDS : List (List Char) :=
  [cs "dashboard", cs "terms", cs "condition", cs "sheet2", cs "alternative"]

/-- Is a sheet name skipped (`any(k in sn.lower() for k in skip_keywords)`)? -/
def sheetSkipped (name : List Char) : Bool :=
  SKIP_KEYWORDS.any (fun k => containsCL k (lowerCL name))

/-- Sheet selection of `parse_excel` when no explicit sheet name is given:
each sheet is (name, `ws.max_row`); the non-skipped sheet with the strictly
greatest row count so far wins, else the first sheet of the workbook.
Returns `none` only for a workbook with no sheets (where the source would
raise an IndexError). -/
def pick_sheet (sheets : List (List Char × ℕ)) : Option (List Char) :=
  let best := sheets.foldl
    (fun (acc : Option (List Char) × ℕ) s =>
      if sheetSkipped s.1 then acc
      else if acc.2 < s.2 then (some s.1, s.2) else acc)
    (Option.none, 0)
  match best.1 with
  | some n => some n
  | Option.none =>
    match sheets with
    | [] => Option.none
    | s :: _ => some s.1

-- ---------------------------------------------------------------------------
-- Persistence filter (rfq_db.load_parsed_rfq, bid-insert loop)
-- ---------------------------------------------------------------------------

/-- The bid rows `load_parsed_rfq` inserts for one item: the bidder entries
whose prices are not both null (`if up is None and ep is None: continue`). -/
def persistedBids (bids : List (List Char × BidValue)) : List (List Char × BidValue) :=
  bids.filter (fun b => b.2.unit_price.isSome || b.2.ext_price.isSome)

-- ---------------------------------------------------------------------------
-- Subset-award optimizer (rfq_app.subset_enum / eval_subset)
-- ---------------------------------------------------------------------------

/-- One row of the bid query feeding the optimizer (`unit_price`/`ext_price`
not both null by the query's WHERE clause, but total here). -/
structure DbBid where
  item_id : ℕ
  bidder : List Char
  unit_price : Option ℚ
  ext_price : Option ℚ
  quantity : Option ℚ
  deriving DecidableEq, Repr

/-- `effective_cost = ext_price if available, else unit_price * qty`,
with `qty = quantity or 1` (Python truthiness: null or zero → 1). -/
def effectiveCost (b : DbBid) : Option ℚ :=
  match b.ext_price with
  | some c => some c
  | Option.none =>
    match b.unit_price with
    | some u =>
      some (u * (match b.quantity with
                 | some q => if q = 0 then 1 else q
                 | Option.none => 1))
    | Option.none => Option.none

/-- `item_costs : {item_id: {bidder: cost}}`. -/
abbrev CostTable := List (ℕ × List (List Char × ℚ))

/-- `item_costs[iid][bidder] = cost` (dict overwrite semantics). -/
def updCosts : List (List Char × ℚ) → List Char → ℚ → List (List Char × ℚ)
  | [], bd, c => [(bd, c)]
  | (b, v) :: rest, bd, c =>
    if b = bd then (b, c) :: rest else (b, v) :: updCosts rest bd c

/-- `if iid not in item_costs: item_costs[iid] = {}`. -/
def ensureItem (t : CostTable) (iid : ℕ) : CostTable :=
  if (t.lookup iid).isSome then t else t ++ [(iid, [])]

/-- Write one cost into the table. -/
def setItemCost (t : CostTable) (iid : ℕ) (bd : List Char) (c : ℚ) : CostTable :=
  t.map (fun e => if e.1 = iid then (e.1, updCosts e.2 bd c) else e)

/-- Build `item_costs` from the bid rows (negative effective costs
excluded, the empty dict entry still created first, as in the source). -/
def item_costs (bids : List DbBid) : CostTable :=
  bids.foldl
    (fun t b =>
      let t' := ensureItem t b.item_id
      match effectiveCost b with
      | some c => if 0 ≤ c then setItemCost t' b.item_id b.bidder c else t'
      | Option.none => t')
    []

/-- `all_bidders = sorted({b["bidder"] for b in bids})`. -/
def all_bidders (bids : List DbBid) : List (List Char) :=
  sortStrs ((bids.map (fun b => b.bidder)).dedup)

/-- Binary minimum on ℚ, kept as an explicit `if` so that concrete
computations reduce inside the kernel. -/
def minq (a b : ℚ) : ℚ := if a ≤ b then a else b

/-- Binary maximum on ℚ. -/
def maxq (a b : ℚ) : ℚ := if b ≤ a then a else b

/-- Minimum of a list of rationals (`min(...)` of Python). -/
def minQ : List ℚ → Option ℚ
  | [] => Option.none
  | v :: rest =>
    match minQ rest with
    | Option.none => some v
    | some m => some (minq v m)

/-- Maximum of a list of rationals. -/
def maxQ : List ℚ → Option ℚ
  | [] => Option.none
  | v :: rest =>
    match maxQ rest with
    | Option.none => some v
    | some m => some (maxq v m)

/-- `costs_here.values()` for one item: the costs quoted by subset members
(`{bd: item_costs[iid][bd] for bd in bidder_set if … bd in item_costs[iid]}`). -/
def valsFor (t : CostTable) (S : List (List Char)) (iid : ℕ) : List ℚ :=
  match t.lookup iid with
  | some m => (m.filter (fun e => S.contains e.1)).map (fun e => e.2)
  | Option.none => []

/-- `eval_subset`: `(total_cost, covered_count, uncovered_ids)` for one
bidder subset. -/
def eval_subset (t : CostTable) (item_ids : List ℕ) (S : List (List Char)) :
    ℚ × ℕ × List ℕ :=
  item_ids.foldl
    (fun acc iid =>
      match minQ (valsFor t S iid) with
      | some mn => (acc.1 + mn, acc.2.1 + 1, acc.2.2)
      | Option.none => (acc.1, acc.2.1, acc.2.2 ++ [iid]))
    (0, 0, [])

/-- Total cost of a subset. -/
def subsetCost (t : CostTable) (item_ids : List ℕ) (S : List (List Char)) : ℚ :=
  (eval_subset t item_ids S).1

/-- `itertools.combinations` in its enumeration order (lexicographic over
the input list). -/
def combos {α : Type} : ℕ → List α → List (List α)
  | 0, _ => [[]]
  | _ + 1, [] => []
  | k + 1, x :: xs => (combos k xs).map (fun c => x :: c) ++ combos (k + 1) xs

/-- The selection loop `if best_cost is None or cost < best_cost`:
keep the first combination with a strictly smaller cost. -/
def pickBest {α : Type} (f : α → ℚ) : Option α → List α → Option α
  | cur, [] => cur
  | cur, c :: rest =>
    pickBest f
      (match cur with
       | Option.none => some c
       | some b => if f c < f b then some c else some b)
      rest

/-- Best subset of size `k` (the inner loop of `subset_enum` for one `k`). -/
def bestForK (item_ids : List ℕ) (bids : List DbBid) (k : ℕ) :
    Option (List (List Char)) :=
  pickBest (fun c => subsetCost (item_costs bids) item_ids c) Option.none
    (combos k (all_bidders bids))

/-- Best cost at size `k`. -/
def bestCostForK (item_ids : List ℕ) (bids : List DbBid) (k : ℕ) : Option ℚ :=
  (bestForK item_ids bids k).map (fun c => subsetCost (item_costs bids) item_ids c)

/-- `subset_enum` results: `(k, best subset, total cost)` for
`k = 1 .. n`; the endpoint additionally derives savings percentages and a
per-item breakdown from exactly these values (no claim concerns them), and
404s with "No items found" when the item list is empty. -/
def subset_enum_results (item_ids : List ℕ) (bids : List DbBid) :
    Option (List (ℕ × Option (List (List Char) × ℚ))) :=
  if item_ids = [] then Option.none
  else
    some ((List.range' 1 (all_bidders bids).length).map
      (fun k =>
        (k, (bestForK item_ids bids k).map
          (fun c => (c, subsetCost (item_costs bids) item_ids c)))))

-- ---------------------------------------------------------------------------
-- Historical estimator (rfq_app.estimate_rfq, `_tokenise_spec`, `_jaccard`)
-- ---------------------------------------------------------------------------

/-- Stop-words of `_tokenise_spec`. -/
def TOKEN_SKIP : List (List Char) :=
  [cs "AND", cs "OR", cs "THE", cs "TO", cs "OF", cs "IN", cs "WITH"]

/-- Separator class of `re.split(r"[\s,/\(\)\-]+", …)`. -/
def specSepChar (c : Char) : Bool :=
  c.isWhitespace || c = ',' || c = '/' || c = '(' || c = ')' || c = '-'

/-- `_tokenise_spec`: upper-case, split on separator runs, drop short and
stop-word tokens; a Python set, embedded as a duplicate-free list. -/
def tokenise_spec (spec : Cell) : List (List Char) :=
  if !spec.truthy then []
  else
    (((upperCL spec.pyStr).splitOnP specSepChar).filter
      (fun t => 2 ≤ t.length && !TOKEN_SKIP.contains t)).dedup

/-- `_jaccard` on the duplicate-free token lists. -/
def jaccard (a b : List (List Char)) : ℚ :=
  if a = [] || b = [] then 0
  else
    let inter := (a.filter (fun t => b.contains t)).length
    let union := (a ++ b.filter (fun t => !a.contains t)).length
    if union = 0 then 0 else (inter : ℚ) / union

/-- One historical bid row of the estimator's query (same `item_type` as the
target, `unit_price` non-null and positive by the WHERE clause). -/
structure HistBid where
  rfq_id : List Char
  bidder : List Char
  specification : Option (List Char)
  size : Option (List Char)
  unit_price : ℚ
  deriving DecidableEq, Repr

/-- The estimator's view of one target item. -/
structure TargetItem where
  specification : Option (List Char)
  size : Option (List Char)
  quantity : Option ℚ
  deriving DecidableEq, Repr

/-- Confidence labels. -/
inductive Conf where
  | HIGH
  | MEDIUM
  | LOW
  | NONE
  deriving DecidableEq, Repr

/-- Score of one candidate: Jaccard similarity plus the size bonus
`min(1.0, score + 0.20)`. -/
def scoreCandidate (ttoks : List (List Char)) (tsize : List Char) (c : HistBid) : ℚ :=
  let ctoks := tokenise_spec (Cell.str (c.specification.getD []))
  let score := jaccard ttoks ctoks
  let csize := upperCL (trimCL (c.size.getD []))
  if tsize ≠ [] && csize ≠ [] && tsize = csize then minq 1 (score + 1 / 5) else score

/-- The retained candidates: `if score >= 0.25: scored.append((score, c))`. -/
def scoredList (titem : TargetItem) (candidates : List HistBid) :
    List (ℚ × HistBid) :=
  let ttoks := tokenise_spec (Cell.str (titem.specification.getD []))
  let tsize := upperCL (trimCL (titem.size.getD []))
  (candidates.map (fun c => (scoreCandidate ttoks tsize c, c))).filter
    (fun sc => (1 : ℚ) / 4 ≤ sc.1)

/-- Deduplication by `(rfq_id, bidder, specification)`, keeping the first
occurrence in the (sorted) scored order. -/
def dedupByKey (l : List (ℚ × HistBid)) : List (ℚ × HistBid) :=
  (l.foldl
    (fun (acc : List (ℚ × HistBid) × List (List Char × List Char × Option (List Char))) sc =>
      let key := (sc.2.rfq_id, sc.2.bidder, sc.2.specification)
      if acc.2.contains key then acc else (acc.1 ++ [sc], acc.2 ++ [key]))
    ([], [])).1

/-- `round(x, d)` (Python rounds floats half-to-even; every rounding a claim
touches is only tested for null-ness, so the mode is immaterial). -/
def roundQ (d : ℕ) (x : ℚ) : ℚ := (⌊x * 10 ^ d + 1 / 2⌋ : ℤ) / (10 : ℚ) ^ d

/-- Per-item estimate fields the claims concern. -/
structure ItemEstimate where
  confidence : Conf
  match_score : ℚ
  matchCount : ℕ
  est_unit_min : Option ℚ
  est_unit_mean : Option ℚ
  est_unit_max : Option ℚ
  est_ext_mean : Option ℚ
  deriving DecidableEq, Repr

/-- The all-null estimate emitted for an uncovered item. -/
def noneEstimate : ItemEstimate :=
  { confidence := Conf.NONE
    match_score := 0
    matchCount := 0
    est_unit_min := Option.none
    est_unit_mean := Option.none
    est_unit_max := Option.none
    est_ext_mean := Option.none }

/-- The scoring/aggregation body of `estimate_rfq`'s loop, once at least one
candidate was retained. -/
def estimate_body (titem : TargetItem) (scored : List (ℚ × HistBid)) : ItemEstimate :=
  let sorted := scored.insertionSort (fun x y => y.1 ≤ x.1)
  let best_score : ℚ := match sorted with | s :: _ => s.1 | [] => 0
  let confidence :=
    if 11 / 20 ≤ best_score then Conf.HIGH
    else if 3 / 10 ≤ best_score then Conf.MEDIUM
    else Conf.LOW
  let dd := dedupByKey sorted
  -- `if not prices_raw: continue` of the source is unreachable (the first
  -- scored row always survives deduplication); kept total here.
  if dd = [] then noneEstimate
  else
    let prices_raw := dd.map (fun sc => sc.2.unit_price)
    let total_w := dd.foldl (fun t sc => t + sc.1) 0
    let wmean := (dd.foldl (fun t sc => t + sc.2.unit_price * sc.1) 0) / total_w
    let qty := match titem.quantity with
               | some q => if q = 0 then 0 else q
               | Option.none => 0
    { confidence := confidence
      match_score := roundQ 3 best_score
      matchCount := (dd.take 8).length
      est_unit_min := (minQ prices_raw).map (roundQ 4)
      est_unit_mean := some (roundQ 4 wmean)
      est_unit_max := (maxQ prices_raw).map (roundQ 4)
      est_ext_mean := if qty ≠ 0 then some (roundQ 2 (wmean * qty)) else Option.none }

/-- The per-item body of `estimate_rfq`'s matching loop, given the
candidate rows sharing the target's `item_type` (the grouping by exact
`item_type` equality happens in `hist_by_type`). -/
def estimate_item (titem : TargetItem) (candidates : List HistBid) : ItemEstimate :=
  if candidates = [] then noneEstimate
  else
    if scoredList titem candidates = [] then noneEstimate
    else estimate_body titem (scoredList titem candidates)

-- ---------------------------------------------------------------------------
-- Spec-side definitions used for comparison with the code
-- ---------------------------------------------------------------------------

/-- Modelled from the spec: a header cell classifies as compound when, after
normalizing separators (underscore to space, `>` to `.`), the cell ends in a
recognized two-token price suffix preceded by at least one non-empty prefix
token (the spec's "2–3-token" suffixes are all two tokens under this
normalization). -/
def specCompoundCell (c : Cell) : Bool :=
  let wordsN := splitWs (replaceChar '>' '.' (replaceChar '_' ' ' (norm c)))
  decide (3 ≤ wordsN.length) && PRICE_ENDINGS_2W.contains (joinSpace (lastN 2 wordsN))

/-- Items of a parse result (an error dict carries none). -/
def parsedItems : ParseResult → List ParsedItem
  | .error _ _ => []
  | .ok pw => pw.items

-- ---------------------------------------------------------------------------
-- Concrete workbooks used by counterexamples and witnesses
-- ---------------------------------------------------------------------------

/-- Format-B workbook in which bidder ZETA has no value in the data row. -/
def c1grid : List Row :=
  [[Cell.str (cs "ITEM #"), Cell.str (cs "DESCRIPTION"),
    Cell.str (cs "ACME_UNIT_PRICE"), Cell.str (cs "ZETA_UNIT_PRICE")],
   [Cell.str (cs "1"), Cell.str (cs "GASKET, 2IN"), Cell.num 10]]

/-- Workbook whose data row has the integer 0 in the item-number column. -/
def c6grid : List Row :=
  [[Cell.str (cs "ITEM #"), Cell.str (cs "DESCRIPTION")],
   [Cell.num 0, Cell.str (cs "GASKET, 2IN")]]

-- ---------------------------------------------------------------------------
-- Claim C1
-- ---------------------------------------------------------------------------

/-- C1 counterexample: in the workbook `c1grid` the parser emits an item
whose `bids` map still contains bidder ZETA with both `unit_price` and
`ext_price` null — the claim says such a bidder is omitted entirely from the
item's `bids` map, so the claim as stated is false for the parser output. -/
theorem c1_counterexample :
    (parsedItems (parse_grid (cs "Sheet1") c1grid)).map (fun it => it.bids) =
      [[(cs "ACME", { unit_price := some 10, ext_price := Option.none }),
        (cs "ZETA", { unit_price := Option.none, ext_price := Option.none })]] := by
  decide

/-- C1 amended: the parser keeps every detected bidder in the item's `bids`
map (both fields possibly null); the omission happens at persistence time:
`load_parsed_rfq` inserts a bid row exactly for the entries with at least one
non-null price, so among the persisted bids a bidder appears iff it quoted
the item. -/
theorem c1_amended (sheet : List Char) (grid : List Row) (pw : ParsedWorkbook)
    (item : ParsedItem) (bidder : List Char)
    (hp : parse_grid sheet grid = ParseResult.ok pw) (hi : item ∈ pw.items) :
    (∀ bv : BidValue, (bidder, bv) ∈ persistedBids item.bids →
        (bidder, bv) ∈ item.bids ∧ (bv.unit_price ≠ Option.none ∨ bv.ext_price ≠ Option.none)) ∧
    (∀ bv : BidValue, (bidder, bv) ∈ item.bids →
        (bv.unit_price ≠ Option.none ∨ bv.ext_price ≠ Option.none) →
        (bidder, bv) ∈ persistedBids item.bids) := by
  constructor
  · intro bv hbv
    have h1 := List.mem_filter.mp hbv
    refine ⟨h1.1, ?_⟩
    have h2 := h1.2
    simp only [Bool.or_eq_true, Option.isSome_iff_exists] at h2
    rcases h2 with ⟨v, hv⟩ | ⟨v, hv⟩
    · exact Or.inl (by simp [hv])
    · exact Or.inr (by simp [hv])
  · intro bv hbv hnn
    refine List.mem_filter.mpr ⟨hbv, ?_⟩
    rcases hnn with h | h
    · rcases Option.ne_none_iff_exists.mp (by simpa using h) with ⟨v, hv⟩
      simp [← hv]
    · rcases Option.ne_none_iff_exists.mp (by simpa using h) with ⟨v, hv⟩
      simp [← hv]

/-- Witness for `c1_amended` at the concrete workbook `c1grid`. -/
theorem c1_amended_witness :
    ∃ pw, parse_grid (cs "Sheet1") c1grid = ParseResult.ok pw ∧
      ∃ item ∈ pw.items,
        (∀ bv : BidValue, (cs "ZETA", bv) ∈ persistedBids item.bids →
            (cs "ZETA", bv) ∈ item.bids ∧
              (bv.unit_price ≠ Option.none ∨ bv.ext_price ≠ Option.none)) := by
  refine ⟨_, rfl, ?_⟩
  refine ⟨(parsedItems (parse_grid (cs "Sheet1") c1grid)).headD
    ⟨[], [], [], Option.none, Option.none, Option.none, []⟩, by decide, ?_⟩
  exact fun bv hbv =>
    (c1_amended (cs "Sheet1") c1grid _ _ (cs "ZETA") rfl (by decide)).1 bv hbv

-- ---------------------------------------------------------------------------
-- Claim C6
-- ---------------------------------------------------------------------------

/-- C6 (code bug): the data row of `c6grid` has the integer 0 in its
item-number column; `_is_data_row` accepts it ("0" is a non-empty short
string), but the emission `str(raw_item).strip() if raw_item else ""` tests
Python truthiness, and the number 0 is falsy — the parser emits an item whose
`item_number` is the empty string, violating the claimed invariant. -/
theorem c6_zero_item_number_bug :
    (parsedItems (parse_grid (cs "Sheet1") c6grid)).map (fun it => it.item_number) = [[]] ∧
    is_data_row (c6grid.getD 1 []) { item_num := some 0, description := some 1 } = true := by
  decide

-- ---------------------------------------------------------------------------
-- Claim C3
-- ---------------------------------------------------------------------------

/-- C3 counterexample: a lone header cell `UNIT_PRICE` has no non-empty
prefix before its price suffix (after separator normalization it is only the
two tokens "unit price"), yet `_detect_format_b` classifies the sheet as
compound-header format via its substring-search branch — so "if and only if"
fails. -/
theorem c3_counterexample :
    detect_format_b [Cell.str (cs "UNIT_PRICE")] = true ∧
    ([Cell.str (cs "UNIT_PRICE")].any specCompoundCell) = false := by
  decide

/-- C3 amended: the classifier decides compound-header format iff some header
cell passes one of its three branch tests — an underscore-containing cell
whose last underscore field is a recognized suffix or which merely contains a
price keyword pattern anywhere (no prefix required), an
uppercase-letter-led `PREFIX_SUFFIX` pattern, or a cell of three or more
words ending in a recognized two-word price suffix; when no cell passes any
branch it classifies as bidder-row format, with no fallback between the two. -/
theorem c3_amended (header_cols : Row) :
    detect_format_b header_cols =
      header_cols.any (fun c => detectB1 c || detectB2 c || detectB3 c) := by
  refine Bool.eq_iff_iff.mpr ?_
  simp only [detect_format_b, Bool.or_eq_true, List.any_eq_true]
  constructor
  · rintro ((⟨c, hc, h⟩ | ⟨c, hc, h⟩) | ⟨c, hc, h⟩)
    · exact ⟨c, hc, Or.inl (Or.inl h)⟩
    · exact ⟨c, hc, Or.inl (Or.inr h)⟩
    · exact ⟨c, hc, Or.inr h⟩
  · rintro ⟨c, hc, (h | h) | h⟩
    · exact Or.inl (Or.inl ⟨c, hc, h⟩)
    · exact Or.inl (Or.inr ⟨c, hc, h⟩)
    · exact Or.inr ⟨c, hc, h⟩

-- ---------------------------------------------------------------------------
-- Claim C5
-- ---------------------------------------------------------------------------

/-- Search lemma for `findHeaderAux`: the returned row is the first
qualifying one of the scanned list. -/
theorem findHeaderAux_spec (l : List Row) : ∀ start : ℕ,
    (∀ i r, findHeaderAux start l = some (i, r) →
       ∃ di, i = start + di ∧ di < l.length ∧ l.getD di [] = r ∧
         headerQualifies r = true ∧ ∀ j < di, headerQualifies (l.getD j []) = false) ∧
    (findHeaderAux start l = Option.none →
       ∀ j < l.length, headerQualifies (l.getD j []) = false) := by
  induction l with
  | nil =>
    intro start
    refine ⟨fun i r h => by simp [findHeaderAux] at h, fun _ j hj => by simp at hj⟩
  | cons r0 rest ih =>
    intro start
    by_cases hq : headerQualifies r0 = true
    · refine ⟨fun i r h => ?_, fun h => ?_⟩
      · simp only [findHeaderAux, hq, if_pos, Option.some.injEq, Prod.mk.injEq] at h
        refine ⟨0, by omega, by simp, ?_, ?_, ?_⟩
        · simpa using h.2
        · simpa [← h.2] using hq
        · intro j hj; omega
      · simp [findHeaderAux, hq] at h
    · refine ⟨fun i r h => ?_, fun h j hj => ?_⟩
      · simp only [findHeaderAux, hq, if_neg, Bool.false_eq_true, not_false_iff] at h
        obtain ⟨di, hdi, hlen, hget, hqual, hfirst⟩ := ((ih (start + 1)).1) i r h
        refine ⟨di + 1, by omega, by simpa using Nat.succ_lt_succ hlen, by simpa using hget,
          hqual, ?_⟩
        intro j hj
        match j with
        | 0 => simpa using (Bool.not_eq_true _).mp hq
        | j' + 1 => exact hfirst j' (by omega)
      · simp only [findHeaderAux, hq, if_neg, Bool.false_eq_true, not_false_iff] at h
        match j with
        | 0 => simpa using (Bool.not_eq_true _).mp hq
        | j' + 1 => exact ((ih (start + 1)).2) h j' (by simpa using Nat.lt_of_succ_lt_succ hj)

/-- C5: the header locator returns the first (lowest-index) row among rows
0–14 containing both an item-number-like and a description-like cell; when
no such row exists (or the sheet is empty) `parse_excel` returns the error
dict naming the sheet — a terminal result carrying no items. -/
theorem c5_header_locator :
    (∀ (rows : List Row) (i : ℕ) (r : Row), find_header_row rows = some (i, r) →
       i < 15 ∧ i < rows.length ∧ rows.getD i [] = r ∧ headerQualifies r = true ∧
         ∀ j < i, headerQualifies (rows.getD j []) = false) ∧
    (∀ rows : List Row, find_header_row rows = Option.none →
       ∀ j, j < 15 → j < rows.length → headerQualifies (rows.getD j []) = false) ∧
    (∀ (sheet : List Char) (rows : List Row), rows ≠ [] →
       find_header_row rows = Option.none →
       parse_grid sheet rows = ParseResult.error (cs "Could not locate column header row") sheet ∧
       parsedItems (parse_grid sheet rows) = []) ∧
    (∀ sheet : List Char,
       parse_grid sheet [] = ParseResult.error (cs "Sheet is empty") sheet ∧
       parsedItems (parse_grid sheet []) = []) := by
  have hget : ∀ (rows : List Row) (j : ℕ), j < 15 → (rows.take 15).getD j [] = rows.getD j [] := by
    intro rows j hj
    simp only [List.getD_eq_getElem?_getD]
    rw [List.getElem?_take_of_lt hj]
  refine ⟨?_, ?_, ?_, ?_⟩
  · intro rows i r h
    obtain ⟨di, hdi, hlen, hgetd, hqual, hfirst⟩ :=
      ((findHeaderAux_spec (rows.take 15) 0).1) i r h
    have hi : i = di := by omega
    have hlen' : di < min 15 rows.length := by simpa [List.length_take] using hlen
    refine ⟨by omega, by omega, ?_, hqual, ?_⟩
    · rw [hi, ← hget rows di (by omega)]; exact hgetd
    · intro j hj
      rw [← hget rows j (by omega)]
      exact hfirst j (by omega)
  · intro rows h j hj hjl
    have := ((findHeaderAux_spec (rows.take 15) 0).2) h j
      (by simp only [List.length_take]; omega)
    rwa [hget rows j hj] at this
  · intro sheet rows hne h
    constructor
    · simp [parse_grid, hne, h]
    · simp [parse_grid, hne, h, parsedItems]
  · intro sheet
    constructor
    · simp [parse_grid]
    · simp [parse_grid, parsedItems]

/-- A grid whose header row sits at index 1, below a non-qualifying row. -/
def c5grid : List Row :=
  [[Cell.str (cs "Request for Quote")],
   [Cell.str (cs "ITEM #"), Cell.str (cs "DESC")]]

/-- Witness for `c5_header_locator` at `c5grid`: the locator skips row 0 and
returns row 1. -/
theorem c5_header_locator_witness :
    1 < 15 ∧ 1 < c5grid.length ∧
      c5grid.getD 1 [] = [Cell.str (cs "ITEM #"), Cell.str (cs "DESC")] ∧
      headerQualifies [Cell.str (cs "ITEM #"), Cell.str (cs "DESC")] = true ∧
      ∀ j < 1, headerQualifies (c5grid.getD j []) = false :=
  c5_header_locator.1 c5grid 1 [Cell.str (cs "ITEM #"), Cell.str (cs "DESC")] (by decide)

-- ---------------------------------------------------------------------------
-- Claim C10
-- ---------------------------------------------------------------------------

/-- The selection step of `pick_sheet`. -/
def pickStep (acc : Option (List Char) × ℕ) (s : List Char × ℕ) :
    Option (List Char) × ℕ :=
  if sheetSkipped s.1 then acc
  else if acc.2 < s.2 then (some s.1, s.2) else acc

/-- Fold invariant of the sheet-selection loop. -/
theorem pickFold_spec (L : List (List Char × ℕ)) :
    ∀ a v,
      v ≤ (L.foldl pickStep (a, v)).2 ∧
      ((L.foldl pickStep (a, v)) = (a, v) ∨
        ∃ s ∈ L, sheetSkipped s.1 = false ∧ (L.foldl pickStep (a, v)) = (some s.1, s.2)) ∧
      (∀ s ∈ L, sheetSkipped s.1 = false → s.2 ≤ (L.foldl pickStep (a, v)).2) := by
  induction L with
  | nil => intro a v; exact ⟨le_refl v, Or.inl rfl, fun s hs => absurd hs (by simp)⟩
  | cons s0 L ih =>
    intro a v
    by_cases hsk : sheetSkipped s0.1 = true
    · have hstep : pickStep (a, v) s0 = (a, v) := by simp [pickStep, hsk]
      have h := ih a v
      refine ⟨?_, ?_, ?_⟩
      · simpa [List.foldl_cons, hstep] using h.1
      · rcases h.2.1 with h2 | ⟨s, hs, hns, he⟩
        · exact Or.inl (by simpa [List.foldl_cons, hstep] using h2)
        · exact Or.inr ⟨s, List.mem_cons_of_mem _ hs, hns, by simpa [List.foldl_cons, hstep] using he⟩
      · intro s hs hns
        rcases List.mem_cons.mp hs with rfl | hs'
        · exact absurd hsk (by simp [hns])
        · simpa [List.foldl_cons, hstep] using h.2.2 s hs' hns
    · have hsk' : sheetSkipped s0.1 = false := by simpa using hsk
      by_cases hlt : v < s0.2
      · have hstep : pickStep (a, v) s0 = (some s0.1, s0.2) := by simp [pickStep, hsk', hlt]
        have h := ih (some s0.1) s0.2
        refine ⟨?_, ?_, ?_⟩
        · have := h.1; simp only [List.foldl_cons, hstep]; omega
        · rcases h.2.1 with h2 | ⟨s, hs, hns, he⟩
          · exact Or.inr ⟨s0, List.mem_cons_self _ _, hsk',
              by simpa [List.foldl_cons, hstep] using h2⟩
          · exact Or.inr ⟨s, List.mem_cons_of_mem _ hs, hns,
              by simpa [List.foldl_cons, hstep] using he⟩
        · intro s hs hns
          rcases List.mem_cons.mp hs with rfl | hs'
          · simpa [List.foldl_cons, hstep] using h.1
          · simpa [List.foldl_cons, hstep] using h.2.2 s hs' hns
      · have hstep : pickStep (a, v) s0 = (a, v) := by simp [pickStep, hsk', hlt]
        have h := ih a v
        refine ⟨?_, ?_, ?_⟩
        · simpa [List.foldl_cons, hstep] using h.1
        · rcases h.2.1 with h2 | ⟨s, hs, hns, he⟩
          · exact Or.inl (by simpa [List.foldl_cons, hstep] using h2)
          · exact Or.inr ⟨s, List.mem_cons_of_mem _ hs, hns,
              by simpa [List.foldl_cons, hstep] using he⟩
        · intro s hs hns
          rcases List.mem_cons.mp hs with rfl | hs'
          · have h1 := h.1
            simp only [List.foldl_cons, hstep]
            omega
          · simpa [List.foldl_cons, hstep] using h.2.2 s hs' hns

/-- C10: with no explicit sheet name, `parse_excel` picks the sheet with the
greatest `max_row` among sheets whose lowercased names contain none of the
skip keywords (dashboard/terms/condition/sheet2/alternative); when every
sheet name contains a skip keyword, the workbook's first sheet is used.  The
hypothesis `1 ≤ rowCount` reflects openpyxl, whose `max_row` is at least 1. -/
theorem c10_sheet_selection (sheets : List (List Char × ℕ))
    (hne : sheets ≠ []) (hrows : ∀ s ∈ sheets, 1 ≤ s.2) :
    ((∃ s ∈ sheets, sheetSkipped s.1 = false) →
       ∃ s ∈ sheets, pick_sheet sheets = some s.1 ∧ sheetSkipped s.1 = false ∧
         ∀ s2 ∈ sheets, sheetSkipped s2.1 = false → s2.2 ≤ s.2) ∧
    ((∀ s ∈ sheets, sheetSkipped s.1 = true) →
       pick_sheet sheets = some ((sheets.headD ([], 0)).1)) := by
  have hfold := pickFold_spec sheets Option.none 0
  constructor
  · rintro ⟨w, hw, hwns⟩
    rcases hfold.2.1 with h2 | ⟨s, hs, hns, he⟩
    · exfalso
      have hle := hfold.2.2 w hw hwns
      rw [h2] at hle
      have := hrows w hw
      omega
    · refine ⟨s, hs, ?_, hns, ?_⟩
      · unfold pick_sheet
        rw [show sheets.foldl
              (fun acc s => if sheetSkipped s.1 then acc
                else if acc.2 < s.2 then (some s.1, s.2) else acc)
              (Option.none, 0) = sheets.foldl pickStep (Option.none, 0) from rfl, he]
      · intro s2 hs2 hns2
        have := hfold.2.2 s2 hs2 hns2
        rwa [he] at this
  · intro hall
    rcases hfold.2.1 with h2 | ⟨s, hs, hns, _⟩
    · unfold pick_sheet
      rw [show sheets.foldl
            (fun acc s => if sheetSkipped s.1 then acc
              else if acc.2 < s.2 then (some s.1, s.2) else acc)
            (Option.none, 0) = sheets.foldl pickStep (Option.none, 0) from rfl, h2]
      match sheets, hne with
      | s0 :: rest, _ => rfl
    · exact absurd (hall s hs) (by simp [hns])

/-- Witness for `c10_sheet_selection`: a skipped "Dashboard" sheet with more
rows loses to the best non-skipped sheet. -/
theorem c10_sheet_selection_witness :
    ((∃ s ∈ [(cs "Dashboard", 90), (cs "Bids", 40), (cs "Data", 60)],
        sheetSkipped s.1 = false) →
       ∃ s ∈ [(cs "Dashboard", 90), (cs "Bids", 40), (cs "Data", 60)],
         pick_sheet [(cs "Dashboard", 90), (cs "Bids", 40), (cs "Data", 60)] = some s.1 ∧
         sheetSkipped s.1 = false ∧
         ∀ s2 ∈ [(cs "Dashboard", 90), (cs "Bids", 40), (cs "Data", 60)],
           sheetSkipped s2.1 = false → s2.2 ≤ s.2) ∧
    ((∀ s ∈ [(cs "Dashboard", 90), (cs "Bids", 40), (cs "Data", 60)],
        sheetSkipped s.1 = true) →
       pick_sheet [(cs "Dashboard", 90), (cs "Bids", 40), (cs "Data", 60)] =
         some (((([(cs "Dashboard", 90), (cs "Bids", 40), (cs "Data", 60)] :
           List (List Char × ℕ))).headD ([], 0)).1)) :=
  c10_sheet_selection [(cs "Dashboard", 90), (cs "Bids", 40), (cs "Data", 60)]
    (by decide) (by decide)

-- ---------------------------------------------------------------------------
-- Optimizer lemmas
-- ---------------------------------------------------------------------------

/-- Every enumerated combination has length `k` and is a sublist of the
bidder list. -/
theorem mem_combos {α : Type} :
    ∀ (l : List α) (k : ℕ) (c : List α), c ∈ combos k l → c.length = k ∧ List.Sublist c l := by
  intro l
  induction l with
  | nil =>
    intro k c h
    match k with
    | 0 => simp only [combos, List.mem_singleton] at h; subst h; exact ⟨rfl, List.Sublist.refl _⟩
    | k + 1 => simp [combos] at h
  | cons x xs ih =>
    intro k c h
    match k with
    | 0 => simp only [combos, List.mem_singleton] at h; subst h; exact ⟨rfl, List.nil_sublist _⟩
    | k + 1 =>
      simp only [combos, List.mem_append, List.mem_map] at h
      rcases h with ⟨c', hc', rfl⟩ | h
      · obtain ⟨hl, hs⟩ := ih k c' hc'
        exact ⟨by simp [hl], List.Sublist.cons₂ x hs⟩
      · obtain ⟨hl, hs⟩ := ih (k + 1) c h
        exact ⟨hl, hs.trans (List.sublist_cons_self x xs)⟩

/-- No combination of size above the list length exists. -/
theorem combos_eq_nil_of_lt {α : Type} :
    ∀ (l : List α) (k : ℕ), l.length < k → combos k l = [] := by
  intro l
  induction l with
  | nil =>
    intro k hk
    cases k with
    | zero => simp at hk
    | succ k => rfl
  | cons x xs ih =>
    intro k hk
    cases k with
    | zero => simp at hk
    | succ k =>
      simp only [combos, List.append_eq_nil]
      constructor
      · rw [ih k (by simp at hk; omega)]; rfl
      · exact ih (k + 1) (by simp at hk; omega)

/-- The single size-`n` combination is the whole bidder list. -/
theorem combos_full {α : Type} : ∀ l : List α, combos l.length l = [l] := by
  intro l
  induction l with
  | nil => rfl
  | cons x xs ih =>
    show combos (xs.length + 1) (x :: xs) = [x :: xs]
    simp only [combos, ih, combos_eq_nil_of_lt xs (xs.length + 1) (by omega)]
    rfl

/-- `pickBest` returns a candidate from its inputs whose value is minimal
among the accumulator and the scanned list. -/
theorem pickBest_spec {α : Type} (f : α → ℚ) :
    ∀ (l : List α) (cur : Option α) (c : α), pickBest f cur l = some c →
      (cur = some c ∨ c ∈ l) ∧ (∀ b, cur = some b → f c ≤ f b) ∧ ∀ d ∈ l, f c ≤ f d := by
  intro l
  induction l with
  | nil =>
    intro cur c h
    have hc : cur = some c := h
    subst hc
    exact ⟨Or.inl rfl, fun b hb => by cases hb; exact le_refl _,
      fun d hd => absurd hd (by simp)⟩
  | cons x rest ih =>
    intro cur c h
    match cur with
    | Option.none =>
      have h' : pickBest f (some x) rest = some c := h
      obtain ⟨hmem, hacc, hrest⟩ := ih (some x) c h'
      refine ⟨?_, ?_, ?_⟩
      · rcases hmem with hx | hr
        · injection hx with hx
          subst hx
          exact Or.inr (List.mem_cons_self _ _)
        · exact Or.inr (List.mem_cons_of_mem x hr)
      · intro b hb
        cases hb
      · intro d hd
        rcases List.mem_cons.mp hd with rfl | hd'
        · exact hacc d rfl
        · exact hrest d hd'
    | some b =>
      by_cases hcmp : f x < f b
      · have h' : pickBest f (some x) rest = some c := by
          simpa [pickBest, hcmp] using h
        obtain ⟨hmem, hacc, hrest⟩ := ih (some x) c h'
        have hcx : f c ≤ f x := hacc x rfl
        refine ⟨?_, fun b' hb' => ?_, fun d hd => ?_⟩
        · rcases hmem with hx | hr
          · injection hx with hx
            subst hx
            exact Or.inr (List.mem_cons_self _ _)
          · exact Or.inr (List.mem_cons_of_mem x hr)
        · cases hb'
          exact le_trans hcx (le_of_lt hcmp)
        · rcases List.mem_cons.mp hd with rfl | hd'
          · exact hcx
          · exact hrest d hd'
      · have h' : pickBest f (some b) rest = some c := by
          simpa [pickBest, hcmp] using h
        obtain ⟨hmem, hacc, hrest⟩ := ih (some b) c h'
        have hcb : f c ≤ f b := hacc b rfl
        refine ⟨?_, fun b' hb' => ?_, fun d hd => ?_⟩
        · rcases hmem with hx | hr
          · exact Or.inl hx
          · exact Or.inr (List.mem_cons_of_mem x hr)
        · cases hb'
          exact hcb
        · rcases List.mem_cons.mp hd with rfl | hd'
          · exact le_trans hcb (le_of_not_lt hcmp)
          · exact hrest d hd'

/-- `pickBest` yields a result whenever the accumulator or list is
non-trivial. -/
theorem pickBest_isSome {α : Type} (f : α → ℚ) :
    ∀ (l : List α) (cur : Option α), l ≠ [] ∨ cur.isSome →
      (pickBest f cur l).isSome := by
  intro l
  induction l with
  | nil =>
    intro cur h
    rcases h with h | h
    · exact absurd rfl h
    · exact h
  | cons x rest ih =>
    intro cur h
    match cur with
    | Option.none => exact ih (some x) (Or.inr rfl)
    | some b =>
      show (pickBest f (if f x < f b then some x else some b) rest).isSome
      by_cases hcmp : f x < f b
      · simpa [hcmp] using ih (some x) (Or.inr rfl)
      · simpa [hcmp] using ih (some b) (Or.inr rfl)

/-- `minQ` returns an element that bounds the list from below. -/
theorem minQ_spec : ∀ (l : List ℚ) (m : ℚ), minQ l = some m → m ∈ l ∧ ∀ v ∈ l, m ≤ v := by
  intro l
  induction l with
  | nil => intro m h; simp [minQ] at h
  | cons v rest ih =>
    intro m h
    match hrest : minQ rest with
    | Option.none =>
      rw [minQ, hrest] at h
      cases h
      have hempty : rest = [] := by
        cases rest with
        | nil => rfl
        | cons a b => simp [minQ] at hrest; cases hm : minQ b <;> simp [hm] at hrest
      subst hempty
      exact ⟨List.mem_singleton_self _, by simp⟩
    | some m' =>
      rw [minQ, hrest] at h
      cases h
      obtain ⟨hmem, hle⟩ := ih m' hrest
      unfold minq
      by_cases hc : v ≤ m'
      · simp only [hc, if_pos]
        exact ⟨List.mem_cons_self _ _, fun d hd => by
          rcases List.mem_cons.mp hd with rfl | hd'
          · exact le_refl _
          · exact le_trans hc (hle d hd')⟩
      · simp only [hc, if_neg, not_false_iff]
        exact ⟨List.mem_cons_of_mem _ hmem, fun d hd => by
          rcases List.mem_cons.mp hd with rfl | hd'
          · exact le_of_not_le hc
          · exact hle d hd'⟩

/-- `minQ` is `none` exactly on the empty list. -/
theorem minQ_eq_none : ∀ l : List ℚ, minQ l = Option.none ↔ l = [] := by
  intro l
  cases l with
  | nil => simp [minQ]
  | cons v rest =>
    simp only [minQ]
    cases h : minQ rest <;> simp

/-- Enlarging the candidate list cannot increase the minimum. -/
theorem minQ_mono (l1 l2 : List ℚ) (hsub : ∀ v ∈ l1, v ∈ l2) (m1 : ℚ)
    (h1 : minQ l1 = some m1) : ∃ m2, minQ l2 = some m2 ∧ m2 ≤ m1 := by
  obtain ⟨hmem, _⟩ := minQ_spec l1 m1 h1
  have h2 : l2 ≠ [] := by
    intro he
    subst he
    exact absurd (hsub m1 hmem) (by simp)
  match hm2 : minQ l2 with
  | Option.none => exact absurd ((minQ_eq_none l2).mp hm2) h2
  | some m2 =>
    obtain ⟨_, hle2⟩ := minQ_spec l2 m2 hm2
    exact ⟨m2, rfl, hle2 m1 (hsub m1 hmem)⟩

/-- Subset members' quoted values are also quoted under a superset. -/
theorem valsFor_mono (t : CostTable) (S T : List (List Char))
    (hsub : ∀ b ∈ S, b ∈ T) (iid : ℕ) :
    ∀ v ∈ valsFor t S iid, v ∈ valsFor t T iid := by
  intro v hv
  unfold valsFor at hv ⊢
  cases hlk : t.lookup iid with
  | none => rw [hlk] at hv; simp at hv
  | some m =>
    rw [hlk] at hv
    simp only [List.mem_map, List.mem_filter] at hv ⊢
    obtain ⟨e, ⟨hem, hes⟩, rfl⟩ := hv
    refine ⟨e, ⟨hem, ?_⟩, rfl⟩
    have h1 : e.1 ∈ S := by simpa using hes
    simpa using hsub e.1 h1

/-- Fold form of the cost-sum comparison: when every item has a quote from
the smaller subset, the larger subset's running total stays below. -/
theorem eval_fold_le (t : CostTable) (S T : List (List Char))
    (hsub : ∀ b ∈ S, b ∈ T) :
    ∀ (ids : List ℕ) (accT accS : ℚ × ℕ × List ℕ), accT.1 ≤ accS.1 →
      (∀ i ∈ ids, valsFor t S i ≠ []) →
      (ids.foldl
        (fun acc iid =>
          match minQ (valsFor t T iid) with
          | some mn => (acc.1 + mn, acc.2.1 + 1, acc.2.2)
          | Option.none => (acc.1, acc.2.1, acc.2.2 ++ [iid])) accT).1 ≤
      (ids.foldl
        (fun acc iid =>
          match minQ (valsFor t S iid) with
          | some mn => (acc.1 + mn, acc.2.1 + 1, acc.2.2)
          | Option.none => (acc.1, acc.2.1, acc.2.2 ++ [iid])) accS).1 := by
  intro ids
  induction ids with
  | nil => intro accT accS hacc _; exact hacc
  | cons i ids ih =>
    intro accT accS hacc hcov
    have hSne : valsFor t S i ≠ [] := hcov i (List.mem_cons_self _ _)
    have hSmin : ∃ mS, minQ (valsFor t S i) = some mS := by
      match hm : minQ (valsFor t S i) with
      | Option.none => exact absurd ((minQ_eq_none _).mp hm) hSne
      | some mS => exact ⟨mS, rfl⟩
    obtain ⟨mS, hmS⟩ := hSmin
    obtain ⟨mT, hmT, hTle⟩ := minQ_mono _ _ (valsFor_mono t S T hsub i) mS hmS
    simp only [List.foldl_cons, hmS, hmT]
    exact ih _ _ (by dsimp only; exact add_le_add hacc hTle)
      (fun j hj => hcov j (List.mem_cons_of_mem _ hj))

/-- The full-coverage comparison: with every item quoted by the smaller
subset, the superset's total cost is no larger. -/
theorem subsetCost_le (t : CostTable) (ids : List ℕ) (S T : List (List Char))
    (hsub : ∀ b ∈ S, b ∈ T) (hcov : ∀ i ∈ ids, valsFor t S i ≠ []) :
    subsetCost t ids T ≤ subsetCost t ids S :=
  eval_fold_le t S T hsub ids (0, 0, []) (0, 0, []) (le_refl 0) hcov

/-- `List.lookup` hits are members. -/
theorem lookup_mem {κ β : Type} [BEq κ] [LawfulBEq κ] :
    ∀ (l : List (κ × β)) (k : κ) (v : β),
      l.lookup k = some v → (k, v) ∈ l := by
  intro l
  induction l with
  | nil => intro k v h; simp at h
  | cons e rest ih =>
    intro k v h
    obtain ⟨k', v'⟩ := e
    rw [List.lookup_cons] at h
    by_cases he : k = k'
    · rw [show (k == k') = true from by simpa using he] at h
      cases h
      subst he
      exact List.mem_cons_self _ _
    · rw [show (k == k') = false from by simpa using he] at h
      exact List.mem_cons_of_mem _ (ih k v h)

-- ---------------------------------------------------------------------------
-- Claim C2
-- ---------------------------------------------------------------------------

/-- Bids in which bidder A quotes only item 2 while bidder B quotes both
items: the best size-1 subset is {A} (item 1 is simply uncovered and costs
nothing), so enlarging the subset increases the optimal total cost. -/
def c2bids : List DbBid :=
  [⟨1, cs "B", Option.none, some 100, Option.none⟩,
   ⟨2, cs "A", Option.none, some 5, Option.none⟩,
   ⟨2, cs "B", Option.none, some 6, Option.none⟩]

unseal Rat.add Rat.mul Rat.sub Rat.inv in
/-- C2 counterexample: with `c2bids` over items [1, 2] there are n = 2
bidders; the optimum at k = n is 105 while the optimum at k = 1 is 5 —
the claimed monotonicity fails because items uncovered by a subset are
excluded from its cost sum. -/
theorem c2_counterexample :
    (all_bidders c2bids).length = 2 ∧
    bestCostForK [1, 2] c2bids 2 = some 105 ∧
    bestCostForK [1, 2] c2bids 1 = some 5 ∧ ¬((105 : ℚ) ≤ 5) := by
  refine ⟨by decide, by decide, by decide, by decide⟩

/-- C2 amended: when every bidder quotes every item (full coverage, so that
every subset covers the whole item set), the optimal total cost at subset
size n is at most the optimal total cost at any size k with 1 ≤ k ≤ n. -/
theorem c2_amended (ids : List ℕ) (bids : List DbBid) (k : ℕ)
    (hk1 : 1 ≤ k) (hkn : k ≤ (all_bidders bids).length)
    (hcov : ∀ i ∈ ids, ∀ bd ∈ all_bidders bids,
      (((item_costs bids).lookup i).getD []).lookup bd ≠ Option.none) :
    ∀ cn ck, bestCostForK ids bids (all_bidders bids).length = some cn →
      bestCostForK ids bids k = some ck → cn ≤ ck := by
  intro cn ck hcn hck
  have hcombN : combos (all_bidders bids).length (all_bidders bids) = [all_bidders bids] :=
    combos_full _
  have hbn : bestForK ids bids (all_bidders bids).length = some (all_bidders bids) := by
    unfold bestForK
    rw [hcombN]
    rfl
  have hcn' : cn = subsetCost (item_costs bids) ids (all_bidders bids) := by
    unfold bestCostForK at hcn
    rw [hbn] at hcn
    simpa using hcn.symm
  obtain ⟨c, hc, hckv⟩ : ∃ c, bestForK ids bids k = some c ∧
      ck = subsetCost (item_costs bids) ids c := by
    unfold bestCostForK at hck
    cases hbk : bestForK ids bids k with
    | none => rw [hbk] at hck; simp at hck
    | some c =>
      rw [hbk] at hck
      exact ⟨c, rfl, by simpa using hck.symm⟩
  have hc' : pickBest (fun c => subsetCost (item_costs bids) ids c) Option.none
      (combos k (all_bidders bids)) = some c := hc
  have hspec := pickBest_spec (fun c => subsetCost (item_costs bids) ids c)
    (combos k (all_bidders bids)) Option.none c hc'
  have hcmem : c ∈ combos k (all_bidders bids) := by
    rcases hspec.1 with h | h
    · cases h
    · exact h
  obtain ⟨hclen, hcsub⟩ := mem_combos (all_bidders bids) k c hcmem
  have hcne : c ≠ [] := by
    intro he
    rw [he] at hclen
    simp at hclen
    omega
  have hcss : ∀ b ∈ c, b ∈ all_bidders bids := fun b hb => hcsub.subset hb
  have hcov' : ∀ i ∈ ids, valsFor (item_costs bids) c i ≠ [] := by
    intro i hi
    obtain ⟨bd, hbd⟩ := List.exists_mem_of_ne_nil c hcne
    have hl := hcov i hi bd (hcss bd hbd)
    cases hlk : (item_costs bids).lookup i with
    | none => rw [hlk] at hl; simp at hl
    | some m =>
      rw [hlk] at hl
      simp only [Option.getD_some] at hl
      cases hmb : m.lookup bd with
      | none => exact absurd hmb hl
      | some v =>
        have hmem := lookup_mem m bd v hmb
        intro hev
        have hvals : valsFor (item_costs bids) c i =
            (m.filter (fun e => c.contains e.1)).map (fun e => e.2) := by
          unfold valsFor
          rw [hlk]
        have h1 : (bd, v) ∈ m.filter (fun e => c.contains e.1) :=
          List.mem_filter.mpr ⟨hmem, by simpa using hbd⟩
        have h2 : v ∈ (m.filter (fun e => c.contains e.1)).map (fun e => e.2) :=
          List.mem_map.mpr ⟨(bd, v), h1, rfl⟩
        rw [← hvals, hev] at h2
        simp at h2
  rw [hcn', hckv]
  exact subsetCost_le (item_costs bids) ids c (all_bidders bids) hcss hcov'

/-- Two bidders fully quoting the single item 1. -/
def c2wbids : List DbBid :=
  [⟨1, cs "A", Option.none, some 7, Option.none⟩,
   ⟨1, cs "B", Option.none, some 5, Option.none⟩]

/-- Witness for `c2_amended` on a fully-covered table. -/
theorem c2_amended_witness :
    1 ≤ 1 ∧ 1 ≤ (all_bidders c2wbids).length ∧
    (∀ i ∈ [1], ∀ bd ∈ all_bidders c2wbids,
      (((item_costs c2wbids).lookup i).getD []).lookup bd ≠ Option.none) ∧
    (∀ cn ck, bestCostForK [1] c2wbids (all_bidders c2wbids).length = some cn →
      bestCostForK [1] c2wbids 1 = some ck → cn ≤ ck) :=
  ⟨by decide, by decide, by decide,
    c2_amended [1] c2wbids 1 (by decide) (by decide) (by decide)⟩

-- ---------------------------------------------------------------------------
-- Claim C8
-- ---------------------------------------------------------------------------

/-- `find?` only depends on the predicate's values on the list. -/
theorem find?_congr_local {α : Type} (p q : α → Bool) :
    ∀ l : List α, (∀ x ∈ l, p x = q x) → l.find? p = l.find? q := by
  intro l
  induction l with
  | nil => intro _; rfl
  | cons x rest ih =>
    intro h
    have hx := h x (List.mem_cons_self _ _)
    cases hp : p x with
    | true =>
      rw [List.find?_cons_of_pos _ hp, List.find?_cons_of_pos _ (by rw [← hx]; exact hp)]
    | false =>
      rw [List.find?_cons_of_neg _ (by simp [hp]), List.find?_cons_of_neg _ (by simp [← hx, hp])]
      exact ih (fun y hy => h y (List.mem_cons_of_mem _ hy))

/-- `find?` on a cons whose head satisfies the predicate (explicit
arguments, avoiding higher-order unification). -/
theorem find?_cons_pos {α : Type} (p : α → Bool) (a : α) (l : List α)
    (h : p a = true) : (a :: l).find? p = some a := by
  simp [List.find?_cons, h]

/-- `find?` on a cons whose head fails the predicate. -/
theorem find?_cons_neg {α : Type} (p : α → Bool) (a : α) (l : List α)
    (h : p a = false) : (a :: l).find? p = l.find? p := by
  simp [List.find?_cons, h]

/-- The strict-improvement selection loop keeps exactly the first element
attaining the minimum value. -/
theorem pickBest_eq_find {α : Type} (f : α → ℚ) :
    ∀ (l : List α) (b : α),
      pickBest f (some b) l =
        (b :: l).find? (fun c => (b :: l).all (fun d => decide (f c ≤ f d))) := by
  intro l
  induction l with
  | nil =>
    intro b
    have hb : (fun c => [b].all (fun d => decide (f c ≤ f d))) b = true := by simp
    rw [find?_cons_pos _ b [] hb]
    rfl
  | cons x rest ih =>
    intro b
    by_cases hxb : f x < f b
    · have hstep : pickBest f (some b) (x :: rest) = pickBest f (some x) rest := by
        simp [pickBest, hxb]
      have hpredb : (fun c => (b :: x :: rest).all (fun d => decide (f c ≤ f d))) b = false := by
        rw [← Bool.not_eq_true]
        intro hall
        simp only [List.all_eq_true, decide_eq_true_eq] at hall
        exact absurd (hall x (by simp)) (not_le_of_lt hxb)
      rw [hstep, ih x,
        find?_cons_neg (fun c => (b :: x :: rest).all (fun d => decide (f c ≤ f d)))
          b (x :: rest) hpredb]
      apply find?_congr_local
      intro c hc
      cases hall : (x :: rest).all (fun d => decide (f c ≤ f d)) with
      | true =>
        simp only [List.all_eq_true, decide_eq_true_eq] at hall
        have hcb : f c ≤ f b := le_trans (hall x (by simp)) (le_of_lt hxb)
        symm
        simp only [List.all_eq_true, decide_eq_true_eq]
        intro d hd
        rcases List.mem_cons.mp hd with rfl | hd'
        · exact hcb
        · exact hall d hd'
      | false =>
        symm
        rw [← Bool.not_eq_true]
        intro hcontra
        simp only [List.all_eq_true, decide_eq_true_eq] at hcontra
        have hup : ((x :: rest).all (fun d => decide (f c ≤ f d))) = true := by
          simp only [List.all_eq_true, decide_eq_true_eq]
          exact fun d hd => hcontra d (List.mem_cons_of_mem _ hd)
        rw [hall] at hup
        cases hup
    · have hbx : f b ≤ f x := le_of_not_lt hxb
      have hstep : pickBest f (some b) (x :: rest) = pickBest f (some b) rest := by
        simp [pickBest, hxb]
      rw [hstep, ih b]
      have hpred_eq : ((b :: rest).all (fun d => decide (f b ≤ f d))) =
          ((b :: x :: rest).all (fun d => decide (f b ≤ f d))) := by
        cases h2 : (b :: x :: rest).all (fun d => decide (f b ≤ f d)) with
        | true =>
          simp only [List.all_eq_true, decide_eq_true_eq] at h2
          simp only [List.all_eq_true, decide_eq_true_eq]
          intro d hd
          rcases List.mem_cons.mp hd with rfl | hd'
          · exact le_refl _
          · exact h2 d (List.mem_cons_of_mem _ (List.mem_cons_of_mem _ hd'))
        | false =>
          rw [← Bool.not_eq_true] at h2 ⊢
          intro hcontra
          apply h2
          simp only [List.all_eq_true, decide_eq_true_eq] at hcontra ⊢
          intro d hd
          rcases List.mem_cons.mp hd with rfl | hd'
          · exact le_refl _
          rcases List.mem_cons.mp hd' with rfl | hd''
          · exact hbx
          · exact hcontra d (List.mem_cons_of_mem _ hd'')
      cases hpb : (b :: x :: rest).all (fun d => decide (f b ≤ f d)) with
      | true =>
        have hpbr : ((b :: rest).all (fun d => decide (f b ≤ f d))) = true := by
          rw [hpred_eq]; exact hpb
        rw [find?_cons_pos (fun c => (b :: x :: rest).all (fun d => decide (f c ≤ f d)))
          b (x :: rest) hpb]
        rw [find?_cons_pos (fun c => (b :: rest).all (fun d => decide (f c ≤ f d)))
          b rest hpbr]
      | false =>
        have hpb' : ((b :: rest).all (fun d => decide (f b ≤ f d))) = false := by
          rw [hpred_eq]; exact hpb
        rw [find?_cons_neg (fun c => (b :: rest).all (fun d => decide (f c ≤ f d)))
          b rest hpb']
        rw [find?_cons_neg (fun c => (b :: x :: rest).all (fun d => decide (f c ≤ f d)))
          b (x :: rest) hpb]
        obtain ⟨d0, hd0, hd0lt⟩ : ∃ d0 ∈ b :: x :: rest, f d0 < f b := by
          rw [← Bool.not_eq_true] at hpb
          simp only [List.all_eq_true, decide_eq_true_eq, not_forall] at hpb
          obtain ⟨d0, hd0, hlt⟩ := hpb
          exact ⟨d0, hd0, lt_of_not_le hlt⟩
        have hpx : (fun c => (b :: x :: rest).all (fun d => decide (f c ≤ f d))) x = false := by
          rw [← Bool.not_eq_true]
          intro hcontra
          simp only [List.all_eq_true, decide_eq_true_eq] at hcontra
          exact absurd (hcontra d0 hd0) (not_le_of_lt (lt_of_lt_of_le hd0lt hbx))
        rw [find?_cons_neg (fun c => (b :: x :: rest).all (fun d => decide (f c ≤ f d)))
          x rest hpx]
        apply find?_congr_local
        intro c hc
        cases hall : (b :: rest).all (fun d => decide (f c ≤ f d)) with
        | true =>
          simp only [List.all_eq_true, decide_eq_true_eq] at hall
          symm
          simp only [List.all_eq_true, decide_eq_true_eq]
          intro d hd
          rcases List.mem_cons.mp hd with rfl | hd'
          · exact hall d (List.mem_cons_self _ _)
          rcases List.mem_cons.mp hd' with rfl | hd''
          · exact le_trans (hall b (List.mem_cons_self _ _)) hbx
          · exact hall d (List.mem_cons_of_mem _ hd'')
        | false =>
          symm
          rw [← Bool.not_eq_true]
          intro hcontra
          simp only [List.all_eq_true, decide_eq_true_eq] at hcontra
          have hup : ((b :: rest).all (fun d => decide (f c ≤ f d))) = true := by
            simp only [List.all_eq_true, decide_eq_true_eq]
            intro d hd
            rcases List.mem_cons.mp hd with rfl | hd'
            · exact hcontra d (List.mem_cons_self _ _)
            · exact hcontra d (List.mem_cons_of_mem _ (List.mem_cons_of_mem _ hd'))
          rw [hall] at hup
          cases hup

/-- `pickBest` from an empty accumulator is first-minimum selection. -/
theorem pickBest_none_eq_find {α : Type} (f : α → ℚ) (l : List α) :
    pickBest f Option.none l = l.find? (fun c => l.all (fun d => decide (f c ≤ f d))) := by
  cases l with
  | nil => rfl
  | cons x rest => exact pickBest_eq_find f rest x

/-- C8: the optimizer is deterministic — as a pure function it returns
identical results on identical cost-table inputs — and for every subset size
`k` the selected subset is the first combination, in the enumeration order
over the sorted bidder list, whose total cost attains the minimum (ties kept
by the strict `<` update of the selection loop). -/
theorem c8_deterministic_tie_break (ids : List ℕ) (bids : List DbBid) :
    (∀ k, bestForK ids bids k =
      (combos k (all_bidders bids)).find?
        (fun c => (combos k (all_bidders bids)).all
          (fun d => decide (subsetCost (item_costs bids) ids c ≤
                            subsetCost (item_costs bids) ids d)))) ∧
    subset_enum_results ids bids = subset_enum_results ids bids :=
  ⟨fun _ => pickBest_none_eq_find _ _, rfl⟩

-- ---------------------------------------------------------------------------
-- Claim C7
-- ---------------------------------------------------------------------------

/-- The column recorded for `(bidder, role)` in a bidder map. -/
def bmAssigned (bm : BidderMap) (name : List Char) (fld : Field) : Option ℕ :=
  match bm.lookup name with
  | some b => b.get fld
  | Option.none => Option.none

/-- Reading a per-bidder column map after a role update. -/
theorem BCols.get_set (b : BCols) (f fld : Field) (col : ℕ) :
    (b.set f col).get fld = if fld = f then some col else b.get fld := by
  cases f <;> cases fld <;> simp [BCols.set, BCols.get]

/-- An empty per-bidder map has no columns. -/
theorem BCols.get_empty (fld : Field) : (({} : BCols)).get fld = Option.none := by
  cases fld <;> rfl

/-- `lookup` skips a cons with a different key. -/
theorem lookup_cons_ne {β : Type} (k : List Char) (b : β) (rest : List (List Char × β))
    (name : List Char) (hn : name ≠ k) :
    ((k, b) :: rest).lookup name = rest.lookup name := by
  rw [List.lookup_cons, show (name == k) = false from by simpa using hn]

/-- Reading the bidder map after `bidder_map[n][f] = c`. -/
theorem bmAssigned_update :
    ∀ (bm : BidderMap) (n : List Char) (f : Field) (c : ℕ) (name : List Char) (fld : Field),
      bmAssigned (updateBidder bm n f c) name fld =
        if name = n ∧ fld = f then some c else bmAssigned bm name fld := by
  intro bm
  induction bm with
  | nil =>
    intro n f c name fld
    show bmAssigned [(n, BCols.set {} f c)] name fld = _
    by_cases hn : name = n
    · simp only [bmAssigned, hn, List.lookup_cons_self, BCols.get_set, List.lookup_nil]
      by_cases hf : fld = f
      · simp [hf]
      · simp [hf, BCols.get_empty]
    · simp only [bmAssigned, lookup_cons_ne n _ [] name hn, List.lookup_nil]
      simp [hn]
  | cons e rest ih =>
    intro n f c name fld
    obtain ⟨k, b⟩ := e
    by_cases hk : k = n
    · have hupd : updateBidder ((k, b) :: rest) n f c = (k, b.set f c) :: rest := by
        simp [updateBidder, hk]
      rw [hupd]
      by_cases hn : name = k
      · simp only [bmAssigned, hn, List.lookup_cons_self, BCols.get_set]
        by_cases hf : fld = f
        · simp [hk, hf]
        · simp [hk, hf]
      · simp only [bmAssigned, lookup_cons_ne k _ rest name hn]
        have hnn : ¬(name = n) := fun he => hn (he.trans hk.symm)
        simp [hnn]
    · have hupd : updateBidder ((k, b) :: rest) n f c =
          (k, b) :: updateBidder rest n f c := by
        simp [updateBidder, hk]
      rw [hupd]
      by_cases hn : name = k
      · simp only [bmAssigned, hn, List.lookup_cons_self]
        simp [hk]
      · simp only [bmAssigned, lookup_cons_ne k _ _ name hn,
          lookup_cons_ne k _ rest name hn]
        have := ih n f c name fld
        simp only [bmAssigned] at this
        exact this

/-- `filter` on a cons whose head passes (explicit predicate argument). -/
theorem filter_cons_pos {α : Type} (p : α → Bool) (a : α) (l : List α)
    (h : p a = true) : (a :: l).filter p = a :: l.filter p := by
  simp [List.filter_cons, h]

/-- `filter` on a cons whose head fails. -/
theorem filter_cons_neg {α : Type} (p : α → Bool) (a : α) (l : List α)
    (h : p a = false) : (a :: l).filter p = l.filter p := by
  simp [List.filter_cons, h]

/-- `getLast?` of a cons, phrased for the fold characterization. -/
theorem getLast?_cons_eq {α : Type} (a : α) (l : List α) :
    (a :: l).getLast? = match l.getLast? with
      | some x => some x
      | Option.none => some a := by
  induction l generalizing a with
  | nil => rfl
  | cons b l ih =>
    rw [List.getLast?_cons_cons, ih b]
    cases hl : l.getLast? with
    | none => rfl
    | some x => rfl

/-- Characterization of the assignment fold of `_parse_format_ac`: the
column recorded for `(name, fld)` is the last price column whose
nearest-left bidder is `name` and whose role is `fld`. -/
theorem acFold_char (bn : List (ℕ × List Char)) (name : List Char) (fld : Field) :
    ∀ (L : List (ℕ × Field)) (bm0 : BidderMap),
      bmAssigned (L.foldl (acStep bn) bm0) name fld =
        match (L.filter (fun cr => decide (cr.2 = fld) &&
            decide (bidder_for_col bn cr.1 = some name) &&
            decide (name ≠ []))).getLast? with
        | some cr => some cr.1
        | Option.none => bmAssigned bm0 name fld := by
  intro L
  induction L with
  | nil => intro bm0; rfl
  | cons cr L ih =>
    intro bm0
    rw [List.foldl_cons, ih (acStep bn bm0 cr)]
    by_cases hP : (cr.2 = fld ∧ bidder_for_col bn cr.1 = some name ∧ name ≠ [])
    · obtain ⟨hf, ho, hn⟩ := hP
      have hPb : (decide (cr.2 = fld) && decide (bidder_for_col bn cr.1 = some name) &&
          decide (name ≠ [])) = true := by
        simp [hf, ho, hn]
      rw [filter_cons_pos (fun cr => decide (cr.2 = fld) &&
          decide (bidder_for_col bn cr.1 = some name) && decide (name ≠ [])) cr L hPb,
        getLast?_cons_eq]
      have hstep : bmAssigned (acStep bn bm0 cr) name fld = some cr.1 := by
        simp only [acStep, ho]
        rw [if_pos hn, bmAssigned_update]
        simp [hf]
      cases hl : (L.filter (fun cr => decide (cr.2 = fld) &&
          decide (bidder_for_col bn cr.1 = some name) && decide (name ≠ []))).getLast? with
      | none => rw [hstep]
      | some x => rfl
    · have hPb : (decide (cr.2 = fld) && decide (bidder_for_col bn cr.1 = some name) &&
          decide (name ≠ [])) = false := by
        rw [← Bool.not_eq_true]
        simp only [Bool.and_eq_true, decide_eq_true_eq]
        intro hc
        exact hP ⟨hc.1.1, hc.1.2, hc.2⟩
      rw [filter_cons_neg (fun cr => decide (cr.2 = fld) &&
          decide (bidder_for_col bn cr.1 = some name) && decide (name ≠ [])) cr L hPb]
      have hstep : bmAssigned (acStep bn bm0 cr) name fld = bmAssigned bm0 name fld := by
        cases ho : bidder_for_col bn cr.1 with
        | none => simp only [acStep, ho]
        | some n =>
          by_cases hn : n ≠ []
          · simp only [acStep, ho]
            rw [if_pos hn, bmAssigned_update]
            have hne : ¬(name = n ∧ fld = cr.2) := by
              rintro ⟨rfl, rfl⟩
              exact hP ⟨rfl, ho, hn⟩
            simp [hne]
          · simp only [acStep, ho]
            rw [if_neg hn]
      rw [hstep]

/-- `lookup` of a present key succeeds. -/
theorem lookup_isSome_of_mem {κ β : Type} [BEq κ] [LawfulBEq κ] :
    ∀ (l : List (κ × β)) (k : κ), k ∈ l.map Prod.fst →
      (l.lookup k).isSome := by
  intro l
  induction l with
  | nil => intro k h; simp at h
  | cons e rest ih =>
    intro k h
    rw [List.lookup_cons]
    by_cases he : k = e.1
    · rw [show (k == e.1) = true from by simpa using he]
      rfl
    · rw [show (k == e.1) = false from by simpa using he]
      apply ih
      rcases List.mem_map.mp h with ⟨p, hp, hpk⟩
      rcases List.mem_cons.mp hp with rfl | hp'
      · exact absurd hpk.symm he
      · exact List.mem_map.mpr ⟨p, hp', hpk⟩

/-- The `_bidder_for_col` walk, on a sorted list and with a below-list
accumulator, returns the greatest column `≤ col`. -/
theorem owner_scan_acc (col : ℕ) :
    ∀ (l : List ℕ) (a : ℕ), l.Sorted (· ≤ ·) → a ≤ col → (∀ b ∈ l, a ≤ b) →
      ∃ bc, owner_scan l col (some a) = some bc ∧ (bc = a ∨ bc ∈ l) ∧ bc ≤ col ∧
        a ≤ bc ∧ ∀ b ∈ l, b ≤ col → b ≤ bc := by
  intro l
  induction l with
  | nil =>
    intro a _ ha _
    exact ⟨a, rfl, Or.inl rfl, ha, le_refl a, fun b hb => absurd hb (by simp)⟩
  | cons x rest ih =>
    intro a hs ha hab
    by_cases hx : x ≤ col
    · obtain ⟨bc, hscan, hmem, hbc, hxbc, hmax⟩ :=
        ih x (List.sorted_cons.mp hs).2 hx (fun b hb => (List.sorted_cons.mp hs).1 b hb)
      refine ⟨bc, ?_, ?_, hbc, ?_, ?_⟩
      · simpa [owner_scan, hx] using hscan
      · rcases hmem with rfl | hm
        · exact Or.inr (List.mem_cons_self _ _)
        · exact Or.inr (List.mem_cons_of_mem _ hm)
      · exact le_trans (hab x (List.mem_cons_self _ _)) hxbc
      · intro b hb hbcol
        rcases List.mem_cons.mp hb with rfl | hb'
        · exact hxbc
        · exact hmax b hb' hbcol
    · refine ⟨a, by simpa [owner_scan, hx] using rfl, Or.inl rfl, ha, le_refl a, ?_⟩
      intro b hb hbcol
      rcases List.mem_cons.mp hb with rfl | hb'
      · exact absurd hbcol hx
      · exact absurd (le_trans ((List.sorted_cons.mp hs).1 b hb') hbcol) hx

/-- Characterization of `owner_scan` from an empty accumulator on a sorted
list: either nothing is at or left of `col`, or the greatest such column is
returned. -/
theorem owner_scan_spec (col : ℕ) (l : List ℕ) (hs : l.Sorted (· ≤ ·)) :
    (owner_scan l col Option.none = Option.none ∧ ∀ b ∈ l, ¬b ≤ col) ∨
    (∃ bc, owner_scan l col Option.none = some bc ∧ bc ∈ l ∧ bc ≤ col ∧
      ∀ b ∈ l, b ≤ col → b ≤ bc) := by
  cases l with
  | nil => exact Or.inl ⟨rfl, fun b hb => absurd hb (by simp)⟩
  | cons x rest =>
    by_cases hx : x ≤ col
    · obtain ⟨bc, hscan, hmem, hbc, hxbc, hmax⟩ :=
        owner_scan_acc col rest x (List.sorted_cons.mp hs).2 hx
          (fun b hb => (List.sorted_cons.mp hs).1 b hb)
      refine Or.inr ⟨bc, by simpa [owner_scan, hx] using hscan, ?_, hbc, ?_⟩
      · rcases hmem with rfl | hm
        · exact List.mem_cons_self _ _
        · exact List.mem_cons_of_mem _ hm
      · intro b hb hbcol
        rcases List.mem_cons.mp hb with rfl | hb'
        · exact hxbc
        · exact hmax b hb' hbcol
    · refine Or.inl ⟨by simpa [owner_scan, hx] using rfl, ?_⟩
      intro b hb
      rcases List.mem_cons.mp hb with rfl | hb'
      · exact hx
      · intro hbcol
        exact hx (le_trans ((List.sorted_cons.mp hs).1 b hb') hbcol)

/-- `_bidder_for_col` success means the bidder sits at the greatest
name-column index at or left of the price column. -/
theorem bidder_for_col_some (bn : List (ℕ × List Char)) (col : ℕ) (name : List Char)
    (h : bidder_for_col bn col = some name) :
    ∃ bc, (bc, name) ∈ bn ∧ bc ≤ col ∧ ∀ p ∈ bn, p.1 ≤ col → p.1 ≤ bc := by
  have hsorted : ((bn.map Prod.fst).insertionSort (· ≤ ·)).Sorted (· ≤ ·) :=
    List.sorted_insertionSort _ _
  have h' : (owner_scan ((bn.map Prod.fst).insertionSort (· ≤ ·)) col Option.none).bind
      (fun bc => bn.lookup bc) = some name := h
  rcases owner_scan_spec col _ hsorted with ⟨hnone, _⟩ | ⟨bc, hsome, hmem, hbc, hmax⟩
  · rw [hnone] at h'
    simp at h'
  · rw [hsome] at h'
    have hlook : bn.lookup bc = some name := h'
    refine ⟨bc, lookup_mem bn bc name hlook, hbc, ?_⟩
    intro p hp hpcol
    exact hmax p.1 ((List.perm_insertionSort (· ≤ ·) (bn.map Prod.fst)).symm.subset
      (List.mem_map.mpr ⟨p, hp, rfl⟩)) hpcol

/-- `_bidder_for_col` fails exactly when every bidder-name column lies
strictly right of the price column. -/
theorem bidder_for_col_none (bn : List (ℕ × List Char)) (col : ℕ) :
    bidder_for_col bn col = Option.none ↔ ∀ p ∈ bn, ¬p.1 ≤ col := by
  have hsorted : ((bn.map Prod.fst).insertionSort (· ≤ ·)).Sorted (· ≤ ·) :=
    List.sorted_insertionSort _ _
  rcases owner_scan_spec col _ hsorted with ⟨hnone, hall⟩ | ⟨bc, hsome, hmem, hbc, _⟩
  · constructor
    · intro _ p hp
      exact hall p.1 ((List.perm_insertionSort (· ≤ ·) (bn.map Prod.fst)).symm.subset
        (List.mem_map.mpr ⟨p, hp, rfl⟩))
    · intro _
      show (owner_scan ((bn.map Prod.fst).insertionSort (· ≤ ·)) col Option.none).bind
        (fun bc => bn.lookup bc) = Option.none
      rw [hnone]
      rfl
  · have heq : bidder_for_col bn col = bn.lookup bc := by
      show (owner_scan ((bn.map Prod.fst).insertionSort (· ≤ ·)) col Option.none).bind
        (fun bc => bn.lookup bc) = _
      rw [hsome]
      rfl
    have hmem' : bc ∈ bn.map Prod.fst :=
      (List.perm_insertionSort (· ≤ ·) (bn.map Prod.fst)).subset hmem
    constructor
    · intro hlook
      rw [heq] at hlook
      have hsome2 := lookup_isSome_of_mem bn bc hmem'
      rw [hlook] at hsome2
      cases hsome2
    · intro hall
      rcases List.mem_map.mp hmem' with ⟨p, hp, hpk⟩
      exact absurd (hpk ▸ hbc) (hall p hp)

/-- C7: in bidder-row format (a) the column recorded for each `(bidder,
role)` pair is the last recognized price column whose nearest bidder-name
column at or to the left carries that bidder (last column wins inside a
group, matching the accepted overwrite of the data model); (b) a successful
assignment means the bidder's name column is the greatest index `≤` the
price column; (c) a price column left of every bidder-name column gets no
owner, hence is dropped and contributes no bid. -/
theorem c7_nearest_left (rows : List Row) (header_idx : ℕ) (header_cols : Row)
    (name : List Char) (fld : Field) (col : ℕ) :
    (bmAssigned (parse_format_ac rows header_idx header_cols).2 name fld =
      (((parse_ac_cols header_cols).2.filter (fun cr => decide (cr.2 = fld) &&
          decide (bidder_for_col (find_bidder_names_above rows header_idx) cr.1 = some name) &&
          decide (name ≠ []))).getLast?).map Prod.fst) ∧
    (bidder_for_col (find_bidder_names_above rows header_idx) col = some name →
      ∃ bc, (bc, name) ∈ find_bidder_names_above rows header_idx ∧ bc ≤ col ∧
        ∀ p ∈ find_bidder_names_above rows header_idx, p.1 ≤ col → p.1 ≤ bc) ∧
    (bidder_for_col (find_bidder_names_above rows header_idx) col = Option.none ↔
      ∀ p ∈ find_bidder_names_above rows header_idx, ¬p.1 ≤ col) := by
  refine ⟨?_, bidder_for_col_some _ col name, bidder_for_col_none _ col⟩
  have h := acFold_char (find_bidder_names_above rows header_idx) name fld
    (parse_ac_cols header_cols).2 []
  rw [show (parse_format_ac rows header_idx header_cols).2 =
    (parse_ac_cols header_cols).2.foldl (acStep (find_bidder_names_above rows header_idx)) []
    from rfl, h]
  cases hl : ((parse_ac_cols header_cols).2.filter (fun cr => decide (cr.2 = fld) &&
      decide (bidder_for_col (find_bidder_names_above rows header_idx) cr.1 = some name) &&
      decide (name ≠ []))).getLast? with
  | none => rfl
  | some cr => rfl

/-- Bidder-name row above the header: SMP at column 0, EDGEN at column 2;
price columns 2 and 3 both have EDGEN as nearest bidder at or to the left,
and the last one (column 3) is recorded. -/
def c7grid : List Row :=
  [[Cell.str (cs "SMP"), Cell.str (cs ""), Cell.str (cs "EDGEN"), Cell.str (cs "")],
   [Cell.str (cs "ITEM #"), Cell.str (cs "DESC"),
    Cell.str (cs "UNIT PRICE"), Cell.str (cs "UNIT PRICE")]]

unseal Rat.add Rat.mul Rat.sub Rat.inv in
/-- Witness for `c7_nearest_left` at the `c7grid` workbook. -/
theorem c7_nearest_left_witness :
    (bmAssigned (parse_format_ac c7grid 1 (c7grid.getD 1 [])).2 (cs "EDGEN") Field.unit_price =
      (((parse_ac_cols (c7grid.getD 1 [])).2.filter (fun cr =>
          decide (cr.2 = Field.unit_price) &&
          decide (bidder_for_col (find_bidder_names_above c7grid 1) cr.1 = some (cs "EDGEN")) &&
          decide ((cs "EDGEN") ≠ []))).getLast?).map Prod.fst) ∧
    (∃ bc, (bc, cs "EDGEN") ∈ find_bidder_names_above c7grid 1 ∧ bc ≤ 3 ∧
      ∀ p ∈ find_bidder_names_above c7grid 1, p.1 ≤ 3 → p.1 ≤ bc) :=
  ⟨(c7_nearest_left c7grid 1 (c7grid.getD 1 []) (cs "EDGEN") Field.unit_price 3).1,
   (c7_nearest_left c7grid 1 (c7grid.getD 1 []) (cs "EDGEN") Field.unit_price 3).2.1
     (by decide)⟩

-- ---------------------------------------------------------------------------
-- Claim C9
-- ---------------------------------------------------------------------------

instance : IsTotal (ℚ × HistBid) (fun x y => y.1 ≤ x.1) :=
  ⟨fun a b => le_total b.1 a.1⟩

instance : IsTrans (ℚ × HistBid) (fun x y => y.1 ≤ x.1) :=
  ⟨fun _ _ _ hab hbc => le_trans hbc hab⟩

/-- The deduplication fold never shrinks its accumulator to empty. -/
theorem dedupFold_ne_nil :
    ∀ (l : List (ℚ × HistBid))
      (acc : List (ℚ × HistBid) × List (List Char × List Char × Option (List Char))),
      acc.1 ≠ [] →
      (l.foldl
        (fun acc sc =>
          let key := (sc.2.rfq_id, sc.2.bidder, sc.2.specification)
          if acc.2.contains key then acc else (acc.1 ++ [sc], acc.2 ++ [key])) acc).1 ≠ [] := by
  intro l
  induction l with
  | nil => intro acc h; exact h
  | cons sc rest ih =>
    intro acc h
    rw [List.foldl_cons]
    by_cases hk : acc.2.contains (sc.2.rfq_id, sc.2.bidder, sc.2.specification) = true
    · exact ih _ (by rw [if_pos hk]; exact h)
    · exact ih _ (by rw [if_neg hk]; simp)

/-- Deduplication of a non-empty list is non-empty. -/
theorem dedupByKey_ne_nil (l : List (ℚ × HistBid)) (h : l ≠ []) :
    dedupByKey l ≠ [] := by
  match l, h with
  | sc :: rest, _ =>
    unfold dedupByKey
    rw [List.foldl_cons]
    apply dedupFold_ne_nil
    simp

/-- C9: (a) every retained candidate scores at least 1/4; (b) the estimate
is the all-null NONE record exactly when no candidate survives the ≥ 1/4
filter; (c) otherwise the confidence label is decided by the best retained
score against the 11/20 and 3/10 thresholds. -/
theorem c9_estimator (t : TargetItem) (c : List HistBid) :
    (∀ sc ∈ scoredList t c, (1 : ℚ) / 4 ≤ sc.1) ∧
    (estimate_item t c = noneEstimate ↔ scoredList t c = []) ∧
    (scoredList t c ≠ [] → ∃ b, b ∈ (scoredList t c).map (fun sc => sc.1) ∧
      (∀ s ∈ (scoredList t c).map (fun sc => sc.1), s ≤ b) ∧
      (estimate_item t c).confidence =
        (if 11 / 20 ≤ b then Conf.HIGH
         else if 3 / 10 ≤ b then Conf.MEDIUM
         else Conf.LOW)) := by
  have hretain : ∀ sc ∈ scoredList t c, (1 : ℚ) / 4 ≤ sc.1 := by
    intro sc hsc
    unfold scoredList at hsc
    have := List.mem_filter.mp hsc
    simpa using this.2
  by_cases hc : c = []
  · subst hc
    refine ⟨hretain, ?_, ?_⟩
    · simp [estimate_item, scoredList]
    · intro hne
      exact absurd (by simp [scoredList]) hne
  · by_cases hs : scoredList t c = []
    · refine ⟨hretain, ?_, fun hne => absurd hs hne⟩
      simp [estimate_item, hc, hs]
    · -- the sorted list is a non-empty permutation of the scored list
      have hperm := List.perm_insertionSort (fun x y : ℚ × HistBid => y.1 ≤ x.1)
        (scoredList t c)
      have hsne : (scoredList t c).insertionSort (fun x y => y.1 ≤ x.1) ≠ [] := by
        intro he
        exact hs (List.eq_nil_of_length_eq_zero (by
          have := hperm.length_eq
          rw [he] at this
          simpa using this.symm))
      obtain ⟨s0, srest, hsort⟩ : ∃ s0 srest,
          (scoredList t c).insertionSort (fun x y => y.1 ≤ x.1) = s0 :: srest := by
        cases hsl : (scoredList t c).insertionSort (fun x y => y.1 ≤ x.1) with
        | nil => exact absurd hsl hsne
        | cons a b => exact ⟨a, b, rfl⟩
      have hsorted : ((scoredList t c).insertionSort (fun x y => y.1 ≤ x.1)).Sorted
          (fun x y => y.1 ≤ x.1) := List.sorted_insertionSort _ _
      have hdd : dedupByKey ((scoredList t c).insertionSort (fun x y => y.1 ≤ x.1)) ≠ [] :=
        dedupByKey_ne_nil _ hsne
      have hbody_conf : (estimate_body t (scoredList t c)).confidence =
          (if 11 / 20 ≤ s0.1 then Conf.HIGH
           else if 3 / 10 ≤ s0.1 then Conf.MEDIUM
           else Conf.LOW) := by
        unfold estimate_body
        rw [if_neg hdd]
        simp only [hsort]
      have hconf_ne : (estimate_body t (scoredList t c)).confidence ≠ Conf.NONE := by
        rw [hbody_conf]
        by_cases h1 : (11 : ℚ) / 20 ≤ s0.1
        · simp [h1]
        · by_cases h2 : (3 : ℚ) / 10 ≤ s0.1 <;> simp [h1, h2]
      have hei : estimate_item t c = estimate_body t (scoredList t c) := by
        simp [estimate_item, hc, hs]
      refine ⟨hretain, ?_, ?_⟩
      · constructor
        · intro he
          rw [hei] at he
          exact absurd (by rw [he]; rfl) hconf_ne
        · intro he
          exact absurd he hs
      · intro _
        refine ⟨s0.1, ?_, ?_, ?_⟩
        · exact List.mem_map.mpr ⟨s0, hperm.subset (hsort ▸ List.mem_cons_self _ _), rfl⟩
        · intro s hsmem
          obtain ⟨sc, hscm, rfl⟩ := List.mem_map.mp hsmem
          have hscm' : sc ∈ s0 :: srest := hsort ▸ hperm.symm.subset hscm
          rcases List.mem_cons.mp hscm' with rfl | hrest
          · exact le_refl _
          · have := (List.sorted_cons.mp (hsort ▸ hsorted)).1 sc hrest
            exact this
        · rw [hei, hbody_conf]

/-- A perfectly matching historical bid. -/
def c9hist : HistBid :=
  ⟨cs "R1", cs "ACME", some (cs "SMLS, NPS 2, SCH 40"), some (cs "2IN"), 10⟩

/-- A target item with the same specification and size. -/
def c9target : TargetItem := ⟨some (cs "SMLS, NPS 2, SCH 40"), some (cs "2IN"), some 3⟩

unseal Rat.add Rat.mul Rat.sub Rat.inv in
/-- Witness for `c9_estimator` on a one-candidate input that is retained. -/
theorem c9_estimator_witness :
    (∀ sc ∈ scoredList c9target [c9hist], (1 : ℚ) / 4 ≤ sc.1) ∧
    scoredList c9target [c9hist] ≠ [] ∧
    (∃ b, b ∈ (scoredList c9target [c9hist]).map (fun sc => sc.1) ∧
      (∀ s ∈ (scoredList c9target [c9hist]).map (fun sc => sc.1), s ≤ b) ∧
      (estimate_item c9target [c9hist]).confidence =
        (if 11 / 20 ≤ b then Conf.HIGH
         else if 3 / 10 ≤ b then Conf.MEDIUM
         else Conf.LOW)) :=
  ⟨(c9_estimator c9target [c9hist]).1, by decide,
   (c9_estimator c9target [c9hist]).2.2 (by decide)⟩

-- ---------------------------------------------------------------------------
-- Claim C4: string lemmas
-- ---------------------------------------------------------------------------

/-- `endsWithCL` is the Boolean form of list-suffix. -/
theorem endsWithCL_iff (t s : List Char) : endsWithCL t s = true ↔ t <:+ s := by
  simp [endsWithCL]

/-- Evaluating an `endswith` probe against a string with a known concrete
tail: when the probe is no longer than the tail, only the tail matters; when
it is longer but the tail is not one of its suffixes, the probe cannot
match. -/
theorem endsWith_append_eval (xs t probe : List Char)
    (hside : probe.length ≤ t.length ∨ ¬t <:+ probe) :
    endsWithCL probe (xs ++ t) =
      (decide (probe.length ≤ t.length) && endsWithCL probe t) := by
  by_cases hle : probe.length ≤ t.length
  · rw [decide_eq_true hle, Bool.true_and]
    refine Bool.eq_iff_iff.mpr ?_
    rw [endsWithCL_iff, endsWithCL_iff]
    constructor
    · intro h1
      exact List.suffix_of_suffix_length_le h1 (List.suffix_append xs t) hle
    · intro h1
      exact h1.trans (List.suffix_append xs t)
  · have hnot : ¬t <:+ probe := by
      rcases hside with h | h
      · exact absurd h hle
      · exact h
    rw [show (decide (probe.length ≤ t.length)) = false from by simpa using hle,
      Bool.false_and, ← Bool.not_eq_true]
    intro hb
    exact hnot (List.suffix_of_suffix_length_le (List.suffix_append xs t)
      ((endsWithCL_iff _ _).mp hb) (Nat.le_of_lt (Nat.lt_of_not_le hle)))

/-- Evaluate one unit-price synonym test of `_parse_format_b` against
`prefix ++ concrete tail`. -/
theorem unitSynHit_append (lp t syn : List Char) (res : Bool)
    (h1 : ('_' :: underJoin syn).length ≤ t.length ∨ ¬t <:+ ('_' :: underJoin syn))
    (h2 : ('_' :: syn).length ≤ t.length ∨ ¬t <:+ ('_' :: syn))
    (hres : ((decide (('_' :: underJoin syn).length ≤ t.length) &&
        endsWithCL ('_' :: underJoin syn) t) ||
      (decide (('_' :: syn).length ≤ t.length) && endsWithCL ('_' :: syn) t)) = res) :
    unitSynHit (lp ++ t) syn = res := by
  unfold unitSynHit
  rw [endsWith_append_eval lp t _ h1, endsWith_append_eval lp t _ h2]
  exact hres

/-- Evaluate one ext-price synonym test of `_parse_format_b` against
`prefix ++ concrete tail`. -/
theorem extSynHit_append (lp t syn : List Char) (res : Bool)
    (h1 : ('_' :: deleteChar '.' (underJoin syn)).length ≤ t.length ∨
      ¬t <:+ ('_' :: deleteChar '.' (underJoin syn)))
    (hres : (decide (('_' :: deleteChar '.' (underJoin syn)).length ≤ t.length) &&
      endsWithCL ('_' :: deleteChar '.' (underJoin syn)) t) = res) :
    extSynHit (lp ++ t) syn = res := by
  unfold extSynHit
  rw [endsWith_append_eval lp t _ h1]
  exact hres

/-- `dropWhile` is the identity when no element satisfies the predicate. -/
theorem dropWhile_eq_self_of (p : Char → Bool) (l : List Char)
    (h : ∀ c ∈ l, p c = false) : l.dropWhile p = l := by
  cases l with
  | nil => rfl
  | cons a l =>
    rw [List.dropWhile_cons_of_neg (by simp [h a (List.mem_cons_self _ _)])]

/-- `strip` is the identity on whitespace-free strings. -/
theorem trimCL_eq_self (l : List Char) (h : ∀ c ∈ l, c.isWhitespace = false) :
    trimCL l = l := by
  unfold trimCL
  rw [dropWhile_eq_self_of _ l h,
    dropWhile_eq_self_of _ l.reverse (fun c hc => h c (List.mem_reverse.mp hc)),
    List.reverse_reverse]

/-- Deleting an absent character is the identity. -/
theorem deleteChar_eq_self (a : Char) (l : List Char) (h : a ∉ l) :
    deleteChar a l = l := by
  unfold deleteChar
  apply List.filter_eq_self.mpr
  intro c hc
  have hca : c ≠ a := fun he => h (he ▸ hc)
  simpa using hca

/-- Replacing an absent character is the identity. -/
theorem replaceChar_eq_self (a b : Char) (l : List Char) (h : a ∉ l) :
    replaceChar a b l = l := by
  unfold replaceChar
  induction l with
  | nil => rfl
  | cons c rest ih =>
    have hca : ¬c = a := fun he => h (he ▸ List.mem_cons_self _ _)
    rw [List.map_cons, if_neg hca, ih (fun hm => h (List.mem_cons_of_mem _ hm))]

/-- Right-stripping an absent character is the identity. -/
theorem rstripChar_eq_self (c : Char) (l : List Char) (h : c ∉ l) :
    rstripChar c l = l := by
  unfold rstripChar
  rw [dropWhile_eq_self_of _ l.reverse
    (fun x hx => by
      have hxc : x ≠ c := fun he => h (he ▸ List.mem_reverse.mp hx)
      simpa using hxc),
    List.reverse_reverse]

/-- A character fixed by `toLower` and absent from the lowercased string is
absent from the string. -/
theorem not_mem_of_not_mem_lower (ch : Char) (hfix : ch.toLower = ch)
    (p : List Char) (h : ch ∉ lowerCL p) : ch ∉ p :=
  fun hm => h (List.mem_map.mpr ⟨ch, hm, hfix⟩)

/-- Lowercasing distributes over append, with a concrete lowercase tail. -/
theorem lowerCL_append_fixed (p t : List Char) (ht : lowerCL t = t) :
    lowerCL (p ++ t) = lowerCL p ++ t := by
  unfold lowerCL at *
  rw [List.map_append, ht]

-- ---------------------------------------------------------------------------
-- C4: compound header extraction (bidder name and role recovery)
-- ---------------------------------------------------------------------------

/-- A character whose lowercase form is not whitespace is not whitespace
(`Char.toLower` only moves uppercase letters, which are never whitespace). -/
theorem ws_false_of_lower (ch : Char) (h : ch.toLower.isWhitespace = false) :
    ch.isWhitespace = false := by
  cases hws : ch.isWhitespace
  · rfl
  · have hc : ((ch = ' ' ∨ ch = '\t') ∨ ch = '\x0d') ∨ ch = '\n' := by
      simpa [Char.isWhitespace] using hws
    rcases hc with ((rfl | rfl) | rfl) | rfl <;> exact absurd h (by decide)

/-- `_parse_format_b` on a one-cell header whose cell the compound extractor
recognizes: the bidder map gets exactly that bidder with the recognized role
at column 0, and the rfq map stays empty. -/
theorem parse_format_b_single (s b : List Char) (f : Field)
    (htrim : trimCL s = s) (hcc : cellCompound s = some (b, f)) :
    parse_format_b [Cell.str s] = ({}, [(b, BCols.set {} f 0)]) := by
  have h0 : parse_format_b [Cell.str s] =
      (match cellCompound (trimCL s) with
       | some (bb, ff) => (({} : RfqMap), updateBidder [] bb ff 0)
       | Option.none => (rfqStep {} (Cell.str s) 0, ([] : BidderMap))) := rfl
  rw [h0, htrim, hcc]
  rfl

/-- The recognized underscore-joined price suffixes of `_parse_format_b`
branch (a), with the column role each one determines (spec-side vocabulary
of the amended C4 claim). -/
def COMPOUND_UNDERSCORE_SUFFIXES : List (List Char × Field) :=
  [(cs "unit_price", Field.unit_price),
   (cs "unit_cost", Field.unit_price),
   (cs "unitprice", Field.unit_price),
   (cs "total_price", Field.ext_price),
   (cs "totalprice", Field.ext_price),
   (cs "ext_price", Field.ext_price),
   (cs "extprice", Field.ext_price),
   (cs "ext_cost", Field.ext_price),
   (cs "extended_price", Field.ext_price),
   (cs "extended_cost", Field.ext_price)]

/-- C4 case `_unit_price`: any cell `p ++ t` with separator-free non-empty
prefix `p` and tail lowercasing to `_unit_price` is extracted as bidder
`upper(p)` with role `unit_price`. -/
theorem c4case_unit_price (p t : List Char)
    (hne : p ≠ [])
    (hU : '_' ∉ lowerCL p) (hSp : ' ' ∉ lowerCL p) (hD : '.' ∉ lowerCL p)
    (hWp : ∀ ch ∈ p, ch.isWhitespace = false)
    (ht : lowerCL t = cs "_unit_price") :
    cellCompound (p ++ t) = some (upperCL p, Field.unit_price) ∧
    parse_format_b [Cell.str (p ++ t)] =
      ({}, [(upperCL p, BCols.set {} Field.unit_price 0)]) := by
  have hU' : '_' ∉ p := not_mem_of_not_mem_lower '_' (by decide) p hU
  have hlow : lowerCL (p ++ t) = lowerCL p ++ cs "_unit_price" := by
    unfold lowerCL at ht ⊢
    rw [List.map_append, ht]
  have htl : t.length = 11 := by
    have h := congrArg List.length ht
    rw [show (cs "_unit_price").length = 11 from rfl] at h
    simpa [lowerCL] using h
  have u1 : unitSynHit (lowerCL p ++ cs "_unit_price") (cs "unit price") = true :=
    unitSynHit_append _ _ _ true (by decide) (by decide) (by decide)
  have hfind : UNIT_PRICE_SYNONYMS.find? (fun syn =>
      unitSynHit (lowerCL p ++ cs "_unit_price") syn) = some (cs "unit price") := by
    simp only [show UNIT_PRICE_SYNONYMS = [cs "unit price", cs "unit cost", cs "unit_price",
      cs "unit_cost", cs "unitprice"] from rfl, List.find?, u1]
  have hbc : bidderCandidate (p ++ t) (underJoin (cs "unit price")).length = upperCL p := by
    unfold bidderCandidate
    have hlen : (p ++ t).length - ((underJoin (cs "unit price")).length + 1) = p.length := by
      simp only [List.length_append, htl,
        show (underJoin (cs "unit price")).length = 10 from rfl]
      omega
    rw [hlen, List.take_left' rfl, rstripChar_eq_self '_' p hU']
  have hbranch : compoundSynUnit (p ++ t) = some (upperCL p, Field.unit_price) := by
    simp only [compoundSynUnit, hlow, hfind, hbc]
  have hcand : candTruthy (some (upperCL p, Field.unit_price)) = true := by
    cases p with
    | nil => exact absurd rfl hne
    | cons a q => rfl
  have hcc : cellCompound (p ++ t) = some (upperCL p, Field.unit_price) := by
    unfold cellCompound
    rw [hbranch, hcand]
    rfl
  have hWall : ∀ ch ∈ p ++ t, ch.isWhitespace = false := by
    intro ch hch
    rcases List.mem_append.mp hch with hp | htm
    · exact hWp ch hp
    · apply ws_false_of_lower
      have hmem : ch.toLower ∈ lowerCL t := List.mem_map.mpr ⟨ch, htm, rfl⟩
      rw [ht] at hmem
      exact (by decide : ∀ x ∈ cs "_unit_price", x.isWhitespace = false) _ hmem
  exact ⟨hcc, parse_format_b_single (p ++ t) (upperCL p) Field.unit_price
    (trimCL_eq_self _ hWall) hcc⟩

/-- C4 case `_unit_cost`: any cell `p ++ t` with separator-free non-empty
prefix `p` and tail lowercasing to `_unit_cost` is extracted as bidder
`upper(p)` with role `unit_price`. -/
theorem c4case_unit_cost (p t : List Char)
    (hne : p ≠ [])
    (hU : '_' ∉ lowerCL p) (hSp : ' ' ∉ lowerCL p) (hD : '.' ∉ lowerCL p)
    (hWp : ∀ ch ∈ p, ch.isWhitespace = false)
    (ht : lowerCL t = cs "_unit_cost") :
    cellCompound (p ++ t) = some (upperCL p, Field.unit_price) ∧
    parse_format_b [Cell.str (p ++ t)] =
      ({}, [(upperCL p, BCols.set {} Field.unit_price 0)]) := by
  have hU' : '_' ∉ p := not_mem_of_not_mem_lower '_' (by decide) p hU
  have hlow : lowerCL (p ++ t) = lowerCL p ++ cs "_unit_cost" := by
    unfold lowerCL at ht ⊢
    rw [List.map_append, ht]
  have htl : t.length = 10 := by
    have h := congrArg List.length ht
    rw [show (cs "_unit_cost").length = 10 from rfl] at h
    simpa [lowerCL] using h
  have u1 : unitSynHit (lowerCL p ++ cs "_unit_cost") (cs "unit price") = false :=
    unitSynHit_append _ _ _ false (by decide) (by decide) (by decide)
  have u2 : unitSynHit (lowerCL p ++ cs "_unit_cost") (cs "unit cost") = true :=
    unitSynHit_append _ _ _ true (by decide) (by decide) (by decide)
  have hfind : UNIT_PRICE_SYNONYMS.find? (fun syn =>
      unitSynHit (lowerCL p ++ cs "_unit_cost") syn) = some (cs "unit cost") := by
    simp only [show UNIT_PRICE_SYNONYMS = [cs "unit price", cs "unit cost", cs "unit_price",
      cs "unit_cost", cs "unitprice"] from rfl, List.find?, u1, u2]
  have hbc : bidderCandidate (p ++ t) (underJoin (cs "unit cost")).length = upperCL p := by
    unfold bidderCandidate
    have hlen : (p ++ t).length - ((underJoin (cs "unit cost")).length + 1) = p.length := by
      simp only [List.length_append, htl,
        show (underJoin (cs "unit cost")).length = 9 from rfl]
      omega
    rw [hlen, List.take_left' rfl, rstripChar_eq_self '_' p hU']
  have hbranch : compoundSynUnit (p ++ t) = some (upperCL p, Field.unit_price) := by
    simp only [compoundSynUnit, hlow, hfind, hbc]
  have hcand : candTruthy (some (upperCL p, Field.unit_price)) = true := by
    cases p with
    | nil => exact absurd rfl hne
    | cons a q => rfl
  have hcc : cellCompound (p ++ t) = some (upperCL p, Field.unit_price) := by
    unfold cellCompound
    rw [hbranch, hcand]
    rfl
  have hWall : ∀ ch ∈ p ++ t, ch.isWhitespace = false := by
    intro ch hch
    rcases List.mem_append.mp hch with hp | htm
    · exact hWp ch hp
    · apply ws_false_of_lower
      have hmem : ch.toLower ∈ lowerCL t := List.mem_map.mpr ⟨ch, htm, rfl⟩
      rw [ht] at hmem
      exact (by decide : ∀ x ∈ cs "_unit_cost", x.isWhitespace = false) _ hmem
  exact ⟨hcc, parse_format_b_single (p ++ t) (upperCL p) Field.unit_price
    (trimCL_eq_self _ hWall) hcc⟩

/-- C4 case `_unitprice`: any cell `p ++ t` with separator-free non-empty
prefix `p` and tail lowercasing to `_unitprice` is extracted as bidder
`upper(p)` with role `unit_price`. -/
theorem c4case_unitprice (p t : List Char)
    (hne : p ≠ [])
    (hU : '_' ∉ lowerCL p) (hSp : ' ' ∉ lowerCL p) (hD : '.' ∉ lowerCL p)
    (hWp : ∀ ch ∈ p, ch.isWhitespace = false)
    (ht : lowerCL t = cs "_unitprice") :
    cellCompound (p ++ t) = some (upperCL p, Field.unit_price) ∧
    parse_format_b [Cell.str (p ++ t)] =
      ({}, [(upperCL p, BCols.set {} Field.unit_price 0)]) := by
  have hU' : '_' ∉ p := not_mem_of_not_mem_lower '_' (by decide) p hU
  have hlow : lowerCL (p ++ t) = lowerCL p ++ cs "_unitprice" := by
    unfold lowerCL at ht ⊢
    rw [List.map_append, ht]
  have htl : t.length = 10 := by
    have h := congrArg List.length ht
    rw [show (cs "_unitprice").length = 10 from rfl] at h
    simpa [lowerCL] using h
  have u1 : unitSynHit (lowerCL p ++ cs "_unitprice") (cs "unit price") = false :=
    unitSynHit_append _ _ _ false (by decide) (by decide) (by decide)
  have u2 : unitSynHit (lowerCL p ++ cs "_unitprice") (cs "unit cost") = false :=
    unitSynHit_append _ _ _ false (by decide) (by decide) (by decide)
  have u3 : unitSynHit (lowerCL p ++ cs "_unitprice") (cs "unit_price") = false :=
    unitSynHit_append _ _ _ false (by decide) (by decide) (by decide)
  have u4 : unitSynHit (lowerCL p ++ cs "_unitprice") (cs "unit_cost") = false :=
    unitSynHit_append _ _ _ false (by decide) (by decide) (by decide)
  have u5 : unitSynHit (lowerCL p ++ cs "_unitprice") (cs "unitprice") = true :=
    unitSynHit_append _ _ _ true (by decide) (by decide) (by decide)
  have hfind : UNIT_PRICE_SYNONYMS.find? (fun syn =>
      unitSynHit (lowerCL p ++ cs "_unitprice") syn) = some (cs "unitprice") := by
    simp only [show UNIT_PRICE_SYNONYMS = [cs "unit price", cs "unit cost", cs "unit_price",
      cs "unit_cost", cs "unitprice"] from rfl, List.find?, u1, u2, u3, u4, u5]
  have hbc : bidderCandidate (p ++ t) (underJoin (cs "unitprice")).length = upperCL p := by
    unfold bidderCandidate
    have hlen : (p ++ t).length - ((underJoin (cs "unitprice")).length + 1) = p.length := by
      simp only [List.length_append, htl,
        show (underJoin (cs "unitprice")).length = 9 from rfl]
      omega
    rw [hlen, List.take_left' rfl, rstripChar_eq_self '_' p hU']
  have hbranch : compoundSynUnit (p ++ t) = some (upperCL p, Field.unit_price) := by
    simp only [compoundSynUnit, hlow, hfind, hbc]
  have hcand : candTruthy (some (upperCL p, Field.unit_price)) = true := by
    cases p with
    | nil => exact absurd rfl hne
    | cons a q => rfl
  have hcc : cellCompound (p ++ t) = some (upperCL p, Field.unit_price) := by
    unfold cellCompound
    rw [hbranch, hcand]
    rfl
  have hWall : ∀ ch ∈ p ++ t, ch.isWhitespace = false := by
    intro ch hch
    rcases List.mem_append.mp hch with hp | htm
    · exact hWp ch hp
    · apply ws_false_of_lower
      have hmem : ch.toLower ∈ lowerCL t := List.mem_map.mpr ⟨ch, htm, rfl⟩
      rw [ht] at hmem
      exact (by decide : ∀ x ∈ cs "_unitprice", x.isWhitespace = false) _ hmem
  exact ⟨hcc, parse_format_b_single (p ++ t) (upperCL p) Field.unit_price
    (trimCL_eq_self _ hWall) hcc⟩

/-- C4 case `_total_price`: any cell `p ++ t` with separator-free non-empty
prefix `p` and tail lowercasing to `_total_price` is extracted as bidder
`upper(p)` with role `ext_price`. -/
theorem c4case_total_price (p t : List Char)
    (hne : p ≠ [])
    (hU : '_' ∉ lowerCL p) (hSp : ' ' ∉ lowerCL p) (hD : '.' ∉ lowerCL p)
    (hWp : ∀ ch ∈ p, ch.isWhitespace = false)
    (ht : lowerCL t = cs "_total_price") :
    cellCompound (p ++ t) = some (upperCL p, Field.ext_price) ∧
    parse_format_b [Cell.str (p ++ t)] =
      ({}, [(upperCL p, BCols.set {} Field.ext_price 0)]) := by
  have hU' : '_' ∉ p := not_mem_of_not_mem_lower '_' (by decide) p hU
  have hlow : lowerCL (p ++ t) = lowerCL p ++ cs "_total_price" := by
    unfold lowerCL at ht ⊢
    rw [List.map_append, ht]
  have htl : t.length = 12 := by
    have h := congrArg List.length ht
    rw [show (cs "_total_price").length = 12 from rfl] at h
    simpa [lowerCL] using h
  have u1 : unitSynHit (lowerCL p ++ cs "_total_price") (cs "unit price") = false :=
    unitSynHit_append _ _ _ false (by decide) (by decide) (by decide)
  have u2 : unitSynHit (lowerCL p ++ cs "_total_price") (cs "unit cost") = false :=
    unitSynHit_append _ _ _ false (by decide) (by decide) (by decide)
  have u3 : unitSynHit (lowerCL p ++ cs "_total_price") (cs "unit_price") = false :=
    unitSynHit_append _ _ _ false (by decide) (by decide) (by decide)
  have u4 : unitSynHit (lowerCL p ++ cs "_total_price") (cs "unit_cost") = false :=
    unitSynHit_append _ _ _ false (by decide) (by decide) (by decide)
  have u5 : unitSynHit (lowerCL p ++ cs "_total_price") (cs "unitprice") = false :=
    unitSynHit_append _ _ _ false (by decide) (by decide) (by decide)
  have hfindU : UNIT_PRICE_SYNONYMS.find? (fun syn =>
      unitSynHit (lowerCL p ++ cs "_total_price") syn) = Option.none := by
    simp only [show UNIT_PRICE_SYNONYMS = [cs "unit price", cs "unit cost", cs "unit_price",
      cs "unit_cost", cs "unitprice"] from rfl, List.find?, u1, u2, u3, u4, u5]
  have hUnone : compoundSynUnit (p ++ t) = Option.none := by
    simp only [compoundSynUnit, hlow, hfindU]
  have htest : replaceChar ' ' '_' (deleteChar '.' (lowerCL (p ++ t))) =
      lowerCL p ++ cs "_total_price" := by
    rw [hlow]
    unfold deleteChar
    rw [List.filter_append]
    rw [show (cs "_total_price").filter (fun c => c ≠ '.') = cs "_total_price" from by decide]
    rw [show (lowerCL p).filter (fun c => c ≠ '.') = lowerCL p from
      deleteChar_eq_self '.' (lowerCL p) hD]
    unfold replaceChar
    rw [List.map_append]
    rw [show (cs "_total_price").map (fun c => if c = ' ' then '_' else c) = cs "_total_price"
      from by decide]
    rw [show (lowerCL p).map (fun c => if c = ' ' then '_' else c) = lowerCL p from
      replaceChar_eq_self ' ' '_' (lowerCL p) hSp]
  have e1 : extSynHit (lowerCL p ++ cs "_total_price") (cs "total price") = true :=
    extSynHit_append _ _ _ true (by decide) (by decide)
  have hfindE : EXT_PRICE_SYNONYMS.find? (fun syn =>
      extSynHit (lowerCL p ++ cs "_total_price") syn) = some (cs "total price") := by
    simp only [show EXT_PRICE_SYNONYMS = [cs "total price", cs "ext. price", cs "ext price",
      cs "extended price", cs "ext. cost", cs "ext cost", cs "extended cost", cs "total_price",
      cs "ext_price", cs "ext_cost", cs "totalprice", cs "extprice"] from rfl,
      List.find?, e1]
  have hbc : bidderCandidate (p ++ t)
      (deleteChar '.' (underJoin (cs "total price"))).length = upperCL p := by
    unfold bidderCandidate
    have hlen : (p ++ t).length -
        ((deleteChar '.' (underJoin (cs "total price"))).length + 1) = p.length := by
      simp only [List.length_append, htl,
        show (deleteChar '.' (underJoin (cs "total price"))).length = 11 from rfl]
      omega
    rw [hlen, List.take_left' rfl, rstripChar_eq_self '_' p hU']
  have hbranchE : compoundSynExt (p ++ t) = some (upperCL p, Field.ext_price) := by
    simp only [compoundSynExt, htest, hfindE, hbc]
  have hcand : candTruthy (some (upperCL p, Field.ext_price)) = true := by
    cases p with
    | nil => exact absurd rfl hne
    | cons a q => rfl
  have hcc : cellCompound (p ++ t) = some (upperCL p, Field.ext_price) := by
    unfold cellCompound
    rw [hUnone, hbranchE, hcand]
    rfl
  have hWall : ∀ ch ∈ p ++ t, ch.isWhitespace = false := by
    intro ch hch
    rcases List.mem_append.mp hch with hp | htm
    · exact hWp ch hp
    · apply ws_false_of_lower
      have hmem : ch.toLower ∈ lowerCL t := List.mem_map.mpr ⟨ch, htm, rfl⟩
      rw [ht] at hmem
      exact (by decide : ∀ x ∈ cs "_total_price", x.isWhitespace = false) _ hmem
  exact ⟨hcc, parse_format_b_single (p ++ t) (upperCL p) Field.ext_price
    (trimCL_eq_self _ hWall) hcc⟩

/-- C4 case `_totalprice`: any cell `p ++ t` with separator-free non-empty
prefix `p` and tail lowercasing to `_totalprice` is extracted as bidder
`upper(p)` with role `ext_price`. -/
theorem c4case_totalprice (p t : List Char)
    (hne : p ≠ [])
    (hU : '_' ∉ lowerCL p) (hSp : ' ' ∉ lowerCL p) (hD : '.' ∉ lowerCL p)
    (hWp : ∀ ch ∈ p, ch.isWhitespace = false)
    (ht : lowerCL t = cs "_totalprice") :
    cellCompound (p ++ t) = some (upperCL p, Field.ext_price) ∧
    parse_format_b [Cell.str (p ++ t)] =
      ({}, [(upperCL p, BCols.set {} Field.ext_price 0)]) := by
  have hU' : '_' ∉ p := not_mem_of_not_mem_lower '_' (by decide) p hU
  have hlow : lowerCL (p ++ t) = lowerCL p ++ cs "_totalprice" := by
    unfold lowerCL at ht ⊢
    rw [List.map_append, ht]
  have htl : t.length = 11 := by
    have h := congrArg List.length ht
    rw [show (cs "_totalprice").length = 11 from rfl] at h
    simpa [lowerCL] using h
  have u1 : unitSynHit (lowerCL p ++ cs "_totalprice") (cs "unit price") = false :=
    unitSynHit_append _ _ _ false (by decide) (by decide) (by decide)
  have u2 : unitSynHit (lowerCL p ++ cs "_totalprice") (cs "unit cost") = false :=
    unitSynHit_append _ _ _ false (by decide) (by decide) (by decide)
  have u3 : unitSynHit (lowerCL p ++ cs "_totalprice") (cs "unit_price") = false :=
    unitSynHit_append _ _ _ false (by decide) (by decide) (by decide)
  have u4 : unitSynHit (lowerCL p ++ cs "_totalprice") (cs "unit_cost") = false :=
    unitSynHit_append _ _ _ false (by decide) (by decide) (by decide)
  have u5 : unitSynHit (lowerCL p ++ cs "_totalprice") (cs "unitprice") = false :=
    unitSynHit_append _ _ _ false (by decide) (by decide) (by decide)
  have hfindU : UNIT_PRICE_SYNONYMS.find? (fun syn =>
      unitSynHit (lowerCL p ++ cs "_totalprice") syn) = Option.none := by
    simp only [show UNIT_PRICE_SYNONYMS = [cs "unit price", cs "unit cost", cs "unit_price",
      cs "unit_cost", cs "unitprice"] from rfl, List.find?, u1, u2, u3, u4, u5]
  have hUnone : compoundSynUnit (p ++ t) = Option.none := by
    simp only [compoundSynUnit, hlow, hfindU]
  have htest : replaceChar ' ' '_' (deleteChar '.' (lowerCL (p ++ t))) =
      lowerCL p ++ cs "_totalprice" := by
    rw [hlow]
    unfold deleteChar
    rw [List.filter_append]
    rw [show (cs "_totalprice").filter (fun c => c ≠ '.') = cs "_totalprice" from by decide]
    rw [show (lowerCL p).filter (fun c => c ≠ '.') = lowerCL p from
      deleteChar_eq_self '.' (lowerCL p) hD]
    unfold replaceChar
    rw [List.map_append]
    rw [show (cs "_totalprice").map (fun c => if c = ' ' then '_' else c) = cs "_totalprice"
      from by decide]
    rw [show (lowerCL p).map (fun c => if c = ' ' then '_' else c) = lowerCL p from
      replaceChar_eq_self ' ' '_' (lowerCL p) hSp]
  have e1 : extSynHit (lowerCL p ++ cs "_totalprice") (cs "total price") = false :=
    extSynHit_append _ _ _ false (by decide) (by decide)
  have e2 : extSynHit (lowerCL p ++ cs "_totalprice") (cs "ext. price") = false :=
    extSynHit_append _ _ _ false (by decide) (by decide)
  have e3 : extSynHit (lowerCL p ++ cs "_totalprice") (cs "ext price") = false :=
    extSynHit_append _ _ _ false (by decide) (by decide)
  have e4 : extSynHit (lowerCL p ++ cs "_totalprice") (cs "extended price") = false :=
    extSynHit_append _ _ _ false (by decide) (by decide)
  have e5 : extSynHit (lowerCL p ++ cs "_totalprice") (cs "ext. cost") = false :=
    extSynHit_append _ _ _ false (by decide) (by decide)
  have e6 : extSynHit (lowerCL p ++ cs "_totalprice") (cs "ext cost") = false :=
    extSynHit_append _ _ _ false (by decide) (by decide)
  have e7 : extSynHit (lowerCL p ++ cs "_totalprice") (cs "extended cost") = false :=
    extSynHit_append _ _ _ false (by decide) (by decide)
  have e8 : extSynHit (lowerCL p ++ cs "_totalprice") (cs "total_price") = false :=
    extSynHit_append _ _ _ false (by decide) (by decide)
  have e9 : extSynHit (lowerCL p ++ cs "_totalprice") (cs "ext_price") = false :=
    extSynHit_append _ _ _ false (by decide) (by decide)
  have e10 : extSynHit (lowerCL p ++ cs "_totalprice") (cs "ext_cost") = false :=
    extSynHit_append _ _ _ false (by decide) (by decide)
  have e11 : extSynHit (lowerCL p ++ cs "_totalprice") (cs "totalprice") = true :=
    extSynHit_append _ _ _ true (by decide) (by decide)
  have hfindE : EXT_PRICE_SYNONYMS.find? (fun syn =>
      extSynHit (lowerCL p ++ cs "_totalprice") syn) = some (cs "totalprice") := by
    simp only [show EXT_PRICE_SYNONYMS = [cs "total price", cs "ext. price", cs "ext price",
      cs "extended price", cs "ext. cost", cs "ext cost", cs "extended cost", cs "total_price",
      cs "ext_price", cs "ext_cost", cs "totalprice", cs "extprice"] from rfl,
      List.find?, e1, e2, e3, e4, e5, e6, e7, e8, e9, e10, e11]
  have hbc : bidderCandidate (p ++ t)
      (deleteChar '.' (underJoin (cs "totalprice"))).length = upperCL p := by
    unfold bidderCandidate
    have hlen : (p ++ t).length -
        ((deleteChar '.' (underJoin (cs "totalprice"))).length + 1) = p.length := by
      simp only [List.length_append, htl,
        show (deleteChar '.' (underJoin (cs "totalprice"))).length = 10 from rfl]
      omega
    rw [hlen, List.take_left' rfl, rstripChar_eq_self '_' p hU']
  have hbranchE : compoundSynExt (p ++ t) = some (upperCL p, Field.ext_price) := by
    simp only [compoundSynExt, htest, hfindE, hbc]
  have hcand : candTruthy (some (upperCL p, Field.ext_price)) = true := by
    cases p with
    | nil => exact absurd rfl hne
    | cons a q => rfl
  have hcc : cellCompound (p ++ t) = some (upperCL p, Field.ext_price) := by
    unfold cellCompound
    rw [hUnone, hbranchE, hcand]
    rfl
  have hWall : ∀ ch ∈ p ++ t, ch.isWhitespace = false := by
    intro ch hch
    rcases List.mem_append.mp hch with hp | htm
    · exact hWp ch hp
    · apply ws_false_of_lower
      have hmem : ch.toLower ∈ lowerCL t := List.mem_map.mpr ⟨ch, htm, rfl⟩
      rw [ht] at hmem
      exact (by decide : ∀ x ∈ cs "_totalprice", x.isWhitespace = false) _ hmem
  exact ⟨hcc, parse_format_b_single (p ++ t) (upperCL p) Field.ext_price
    (trimCL_eq_self _ hWall) hcc⟩

/-- C4 case `_ext_price`: any cell `p ++ t` with separator-free non-empty
prefix `p` and tail lowercasing to `_ext_price` is extracted as bidder
`upper(p)` with role `ext_price`. -/
theorem c4case_ext_price (p t : List Char)
    (hne : p ≠ [])
    (hU : '_' ∉ lowerCL p) (hSp : ' ' ∉ lowerCL p) (hD : '.' ∉ lowerCL p)
    (hWp : ∀ ch ∈ p, ch.isWhitespace = false)
    (ht : lowerCL t = cs "_ext_price") :
    cellCompound (p ++ t) = some (upperCL p, Field.ext_price) ∧
    parse_format_b [Cell.str (p ++ t)] =
      ({}, [(upperCL p, BCols.set {} Field.ext_price 0)]) := by
  have hU' : '_' ∉ p := not_mem_of_not_mem_lower '_' (by decide) p hU
  have hlow : lowerCL (p ++ t) = lowerCL p ++ cs "_ext_price" := by
    unfold lowerCL at ht ⊢
    rw [List.map_append, ht]
  have htl : t.length = 10 := by
    have h := congrArg List.length ht
    rw [show (cs "_ext_price").length = 10 from rfl] at h
    simpa [lowerCL] using h
  have u1 : unitSynHit (lowerCL p ++ cs "_ext_price") (cs "unit price") = false :=
    unitSynHit_append _ _ _ false (by decide) (by decide) (by decide)
  have u2 : unitSynHit (lowerCL p ++ cs "_ext_price") (cs "unit cost") = false :=
    unitSynHit_append _ _ _ false (by decide) (by decide) (by decide)
  have u3 : unitSynHit (lowerCL p ++ cs "_ext_price") (cs "unit_price") = false :=
    unitSynHit_append _ _ _ false (by decide) (by decide) (by decide)
  have u4 : unitSynHit (lowerCL p ++ cs "_ext_price") (cs "unit_cost") = false :=
    unitSynHit_append _ _ _ false (by decide) (by decide) (by decide)
  have u5 : unitSynHit (lowerCL p ++ cs "_ext_price") (cs "unitprice") = false :=
    unitSynHit_append _ _ _ false (by decide) (by decide) (by decide)
  have hfindU : UNIT_PRICE_SYNONYMS.find? (fun syn =>
      unitSynHit (lowerCL p ++ cs "_ext_price") syn) = Option.none := by
    simp only [show UNIT_PRICE_SYNONYMS = [cs "unit price", cs "unit cost", cs "unit_price",
      cs "unit_cost", cs "unitprice"] from rfl, List.find?, u1, u2, u3, u4, u5]
  have hUnone : compoundSynUnit (p ++ t) = Option.none := by
    simp only [compoundSynUnit, hlow, hfindU]
  have htest : replaceChar ' ' '_' (deleteChar '.' (lowerCL (p ++ t))) =
      lowerCL p ++ cs "_ext_price" := by
    rw [hlow]
    unfold deleteChar
    rw [List.filter_append]
    rw [show (cs "_ext_price").filter (fun c => c ≠ '.') = cs "_ext_price" from by decide]
    rw [show (lowerCL p).filter (fun c => c ≠ '.') = lowerCL p from
      deleteChar_eq_self '.' (lowerCL p) hD]
    unfold replaceChar
    rw [List.map_append]
    rw [show (cs "_ext_price").map (fun c => if c = ' ' then '_' else c) = cs "_ext_price"
      from by decide]
    rw [show (lowerCL p).map (fun c => if c = ' ' then '_' else c) = lowerCL p from
      replaceChar_eq_self ' ' '_' (lowerCL p) hSp]
  have e1 : extSynHit (lowerCL p ++ cs "_ext_price") (cs "total price") = false :=
    extSynHit_append _ _ _ false (by decide) (by decide)
  have e2 : extSynHit (lowerCL p ++ cs "_ext_price") (cs "ext. price") = true :=
    extSynHit_append _ _ _ true (by decide) (by decide)
  have hfindE : EXT_PRICE_SYNONYMS.find? (fun syn =>
      extSynHit (lowerCL p ++ cs "_ext_price") syn) = some (cs "ext. price") := by
    simp only [show EXT_PRICE_SYNONYMS = [cs "total price", cs "ext. price", cs "ext price",
      cs "extended price", cs "ext. cost", cs "ext cost", cs "extended cost", cs "total_price",
      cs "ext_price", cs "ext_cost", cs "totalprice", cs "extprice"] from rfl,
      List.find?, e1, e2]
  have hbc : bidderCandidate (p ++ t)
      (deleteChar '.' (underJoin (cs "ext. price"))).length = upperCL p := by
    unfold bidderCandidate
    have hlen : (p ++ t).length -
        ((deleteChar '.' (underJoin (cs "ext. price"))).length + 1) = p.length := by
      simp only [List.length_append, htl,
        show (deleteChar '.' (underJoin (cs "ext. price"))).length = 9 from rfl]
      omega
    rw [hlen, List.take_left' rfl, rstripChar_eq_self '_' p hU']
  have hbranchE : compoundSynExt (p ++ t) = some (upperCL p, Field.ext_price) := by
    simp only [compoundSynExt, htest, hfindE, hbc]
  have hcand : candTruthy (some (upperCL p, Field.ext_price)) = true := by
    cases p with
    | nil => exact absurd rfl hne
    | cons a q => rfl
  have hcc : cellCompound (p ++ t) = some (upperCL p, Field.ext_price) := by
    unfold cellCompound
    rw [hUnone, hbranchE, hcand]
    rfl
  have hWall : ∀ ch ∈ p ++ t, ch.isWhitespace = false := by
    intro ch hch
    rcases List.mem_append.mp hch with hp | htm
    · exact hWp ch hp
    · apply ws_false_of_lower
      have hmem : ch.toLower ∈ lowerCL t := List.mem_map.mpr ⟨ch, htm, rfl⟩
      rw [ht] at hmem
      exact (by decide : ∀ x ∈ cs "_ext_price", x.isWhitespace = false) _ hmem
  exact ⟨hcc, parse_format_b_single (p ++ t) (upperCL p) Field.ext_price
    (trimCL_eq_self _ hWall) hcc⟩

/-- C4 case `_extprice`: any cell `p ++ t` with separator-free non-empty
prefix `p` and tail lowercasing to `_extprice` is extracted as bidder
`upper(p)` with role `ext_price`. -/
theorem c4case_extprice (p t : List Char)
    (hne : p ≠ [])
    (hU : '_' ∉ lowerCL p) (hSp : ' ' ∉ lowerCL p) (hD : '.' ∉ lowerCL p)
    (hWp : ∀ ch ∈ p, ch.isWhitespace = false)
    (ht : lowerCL t = cs "_extprice") :
    cellCompound (p ++ t) = some (upperCL p, Field.ext_price) ∧
    parse_format_b [Cell.str (p ++ t)] =
      ({}, [(upperCL p, BCols.set {} Field.ext_price 0)]) := by
  have hU' : '_' ∉ p := not_mem_of_not_mem_lower '_' (by decide) p hU
  have hlow : lowerCL (p ++ t) = lowerCL p ++ cs "_extprice" := by
    unfold lowerCL at ht ⊢
    rw [List.map_append, ht]
  have htl : t.length = 9 := by
    have h := congrArg List.length ht
    rw [show (cs "_extprice").length = 9 from rfl] at h
    simpa [lowerCL] using h
  have u1 : unitSynHit (lowerCL p ++ cs "_extprice") (cs "unit price") = false :=
    unitSynHit_append _ _ _ false (by decide) (by decide) (by decide)
  have u2 : unitSynHit (lowerCL p ++ cs "_extprice") (cs "unit cost") = false :=
    unitSynHit_append _ _ _ false (by decide) (by decide) (by decide)
  have u3 : unitSynHit (lowerCL p ++ cs "_extprice") (cs "unit_price") = false :=
    unitSynHit_append _ _ _ false (by decide) (by decide) (by decide)
  have u4 : unitSynHit (lowerCL p ++ cs "_extprice") (cs "unit_cost") = false :=
    unitSynHit_append _ _ _ false (by decide) (by decide) (by decide)
  have u5 : unitSynHit (lowerCL p ++ cs "_extprice") (cs "unitprice") = false :=
    unitSynHit_append _ _ _ false (by decide) (by decide) (by decide)
  have hfindU : UNIT_PRICE_SYNONYMS.find? (fun syn =>
      unitSynHit (lowerCL p ++ cs "_extprice") syn) = Option.none := by
    simp only [show UNIT_PRICE_SYNONYMS = [cs "unit price", cs "unit cost", cs "unit_price",
      cs "unit_cost", cs "unitprice"] from rfl, List.find?, u1, u2, u3, u4, u5]
  have hUnone : compoundSynUnit (p ++ t) = Option.none := by
    simp only [compoundSynUnit, hlow, hfindU]
  have htest : replaceChar ' ' '_' (deleteChar '.' (lowerCL (p ++ t))) =
      lowerCL p ++ cs "_extprice" := by
    rw [hlow]
    unfold deleteChar
    rw [List.filter_append]
    rw [show (cs "_extprice").filter (fun c => c ≠ '.') = cs "_extprice" from by decide]
    rw [show (lowerCL p).filter (fun c => c ≠ '.') = lowerCL p from
      deleteChar_eq_self '.' (lowerCL p) hD]
    unfold replaceChar
    rw [List.map_append]
    rw [show (cs "_extprice").map (fun c => if c = ' ' then '_' else c) = cs "_extprice"
      from by decide]
    rw [show (lowerCL p).map (fun c => if c = ' ' then '_' else c) = lowerCL p from
      replaceChar_eq_self ' ' '_' (lowerCL p) hSp]
  have e1 : extSynHit (lowerCL p ++ cs "_extprice") (cs "total price") = false :=
    extSynHit_append _ _ _ false (by decide) (by decide)
  have e2 : extSynHit (lowerCL p ++ cs "_extprice") (cs "ext. price") = false :=
    extSynHit_append _ _ _ false (by decide) (by decide)
  have e3 : extSynHit (lowerCL p ++ cs "_extprice") (cs "ext price") = false :=
    extSynHit_append _ _ _ false (by decide) (by decide)
  have e4 : extSynHit (lowerCL p ++ cs "_extprice") (cs "extended price") = false :=
    extSynHit_append _ _ _ false (by decide) (by decide)
  have e5 : extSynHit (lowerCL p ++ cs "_extprice") (cs "ext. cost") = false :=
    extSynHit_append _ _ _ false (by decide) (by decide)
  have e6 : extSynHit (lowerCL p ++ cs "_extprice") (cs "ext cost") = false :=
    extSynHit_append _ _ _ false (by decide) (by decide)
  have e7 : extSynHit (lowerCL p ++ cs "_extprice") (cs "extended cost") = false :=
    extSynHit_append _ _ _ false (by decide) (by decide)
  have e8 : extSynHit (lowerCL p ++ cs "_extprice") (cs "total_price") = false :=
    extSynHit_append _ _ _ false (by decide) (by decide)
  have e9 : extSynHit (lowerCL p ++ cs "_extprice") (cs "ext_price") = false :=
    extSynHit_append _ _ _ false (by decide) (by decide)
  have e10 : extSynHit (lowerCL p ++ cs "_extprice") (cs "ext_cost") = false :=
    extSynHit_append _ _ _ false (by decide) (by decide)
  have e11 : extSynHit (lowerCL p ++ cs "_extprice") (cs "totalprice") = false :=
    extSynHit_append _ _ _ false (by decide) (by decide)
  have e12 : extSynHit (lowerCL p ++ cs "_extprice") (cs "extprice") = true :=
    extSynHit_append _ _ _ true (by decide) (by decide)
  have hfindE : EXT_PRICE_SYNONYMS.find? (fun syn =>
      extSynHit (lowerCL p ++ cs "_extprice") syn) = some (cs "extprice") := by
    simp only [show EXT_PRICE_SYNONYMS = [cs "total price", cs "ext. price", cs "ext price",
      cs "extended price", cs "ext. cost", cs "ext cost", cs "extended cost", cs "total_price",
      cs "ext_price", cs "ext_cost", cs "totalprice", cs "extprice"] from rfl,
      List.find?, e1, e2, e3, e4, e5, e6, e7, e8, e9, e10, e11, e12]
  have hbc : bidderCandidate (p ++ t)
      (deleteChar '.' (underJoin (cs "extprice"))).length = upperCL p := by
    unfold bidderCandidate
    have hlen : (p ++ t).length -
        ((deleteChar '.' (underJoin (cs "extprice"))).length + 1) = p.length := by
      simp only [List.length_append, htl,
        show (deleteChar '.' (underJoin (cs "extprice"))).length = 8 from rfl]
      omega
    rw [hlen, List.take_left' rfl, rstripChar_eq_self '_' p hU']
  have hbranchE : compoundSynExt (p ++ t) = some (upperCL p, Field.ext_price) := by
    simp only [compoundSynExt, htest, hfindE, hbc]
  have hcand : candTruthy (some (upperCL p, Field.ext_price)) = true := by
    cases p with
    | nil => exact absurd rfl hne
    | cons a q => rfl
  have hcc : cellCompound (p ++ t) = some (upperCL p, Field.ext_price) := by
    unfold cellCompound
    rw [hUnone, hbranchE, hcand]
    rfl
  have hWall : ∀ ch ∈ p ++ t, ch.isWhitespace = false := by
    intro ch hch
    rcases List.mem_append.mp hch with hp | htm
    · exact hWp ch hp
    · apply ws_false_of_lower
      have hmem : ch.toLower ∈ lowerCL t := List.mem_map.mpr ⟨ch, htm, rfl⟩
      rw [ht] at hmem
      exact (by decide : ∀ x ∈ cs "_extprice", x.isWhitespace = false) _ hmem
  exact ⟨hcc, parse_format_b_single (p ++ t) (upperCL p) Field.ext_price
    (trimCL_eq_self _ hWall) hcc⟩

/-- C4 case `_ext_cost`: any cell `p ++ t` with separator-free non-empty
prefix `p` and tail lowercasing to `_ext_cost` is extracted as bidder
`upper(p)` with role `ext_price`. -/
theorem c4case_ext_cost (p t : List Char)
    (hne : p ≠ [])
    (hU : '_' ∉ lowerCL p) (hSp : ' ' ∉ lowerCL p) (hD : '.' ∉ lowerCL p)
    (hWp : ∀ ch ∈ p, ch.isWhitespace = false)
    (ht : lowerCL t = cs "_ext_cost") :
    cellCompound (p ++ t) = some (upperCL p, Field.ext_price) ∧
    parse_format_b [Cell.str (p ++ t)] =
      ({}, [(upperCL p, BCols.set {} Field.ext_price 0)]) := by
  have hU' : '_' ∉ p := not_mem_of_not_mem_lower '_' (by decide) p hU
  have hlow : lowerCL (p ++ t) = lowerCL p ++ cs "_ext_cost" := by
    unfold lowerCL at ht ⊢
    rw [List.map_append, ht]
  have htl : t.length = 9 := by
    have h := congrArg List.length ht
    rw [show (cs "_ext_cost").length = 9 from rfl] at h
    simpa [lowerCL] using h
  have u1 : unitSynHit (lowerCL p ++ cs "_ext_cost") (cs "unit price") = false :=
    unitSynHit_append _ _ _ false (by decide) (by decide) (by decide)
  have u2 : unitSynHit (lowerCL p ++ cs "_ext_cost") (cs "unit cost") = false :=
    unitSynHit_append _ _ _ false (by decide) (by decide) (by decide)
  have u3 : unitSynHit (lowerCL p ++ cs "_ext_cost") (cs "unit_price") = false :=
    unitSynHit_append _ _ _ false (by decide) (by decide) (by decide)
  have u4 : unitSynHit (lowerCL p ++ cs "_ext_cost") (cs "unit_cost") = false :=
    unitSynHit_append _ _ _ false (by decide) (by decide) (by decide)
  have u5 : unitSynHit (lowerCL p ++ cs "_ext_cost") (cs "unitprice") = false :=
    unitSynHit_append _ _ _ false (by decide) (by decide) (by decide)
  have hfindU : UNIT_PRICE_SYNONYMS.find? (fun syn =>
      unitSynHit (lowerCL p ++ cs "_ext_cost") syn) = Option.none := by
    simp only [show UNIT_PRICE_SYNONYMS = [cs "unit price", cs "unit cost", cs "unit_price",
      cs "unit_cost", cs "unitprice"] from rfl, List.find?, u1, u2, u3, u4, u5]
  have hUnone : compoundSynUnit (p ++ t) = Option.none := by
    simp only [compoundSynUnit, hlow, hfindU]
  have htest : replaceChar ' ' '_' (deleteChar '.' (lowerCL (p ++ t))) =
      lowerCL p ++ cs "_ext_cost" := by
    rw [hlow]
    unfold deleteChar
    rw [List.filter_append]
    rw [show (cs "_ext_cost").filter (fun c => c ≠ '.') = cs "_ext_cost" from by decide]
    rw [show (lowerCL p).filter (fun c => c ≠ '.') = lowerCL p from
      deleteChar_eq_self '.' (lowerCL p) hD]
    unfold replaceChar
    rw [List.map_append]
    rw [show (cs "_ext_cost").map (fun c => if c = ' ' then '_' else c) = cs "_ext_cost"
      from by decide]
    rw [show (lowerCL p).map (fun c => if c = ' ' then '_' else c) = lowerCL p from
      replaceChar_eq_self ' ' '_' (lowerCL p) hSp]
  have e1 : extSynHit (lowerCL p ++ cs "_ext_cost") (cs "total price") = false :=
    extSynHit_append _ _ _ false (by decide) (by decide)
  have e2 : extSynHit (lowerCL p ++ cs "_ext_cost") (cs "ext. price") = false :=
    extSynHit_append _ _ _ false (by decide) (by decide)
  have e3 : extSynHit (lowerCL p ++ cs "_ext_cost") (cs "ext price") = false :=
    extSynHit_append _ _ _ false (by decide) (by decide)
  have e4 : extSynHit (lowerCL p ++ cs "_ext_cost") (cs "extended price") = false :=
    extSynHit_append _ _ _ false (by decide) (by decide)
  have e5 : extSynHit (lowerCL p ++ cs "_ext_cost") (cs "ext. cost") = true :=
    extSynHit_append _ _ _ true (by decide) (by decide)
  have hfindE : EXT_PRICE_SYNONYMS.find? (fun syn =>
      extSynHit (lowerCL p ++ cs "_ext_cost") syn) = some (cs "ext. cost") := by
    simp only [show EXT_PRICE_SYNONYMS = [cs "total price", cs "ext. price", cs "ext price",
      cs "extended price", cs "ext. cost", cs "ext cost", cs "extended cost", cs "total_price",
      cs "ext_price", cs "ext_cost", cs "totalprice", cs "extprice"] from rfl,
      List.find?, e1, e2, e3, e4, e5]
  have hbc : bidderCandidate (p ++ t)
      (deleteChar '.' (underJoin (cs "ext. cost"))).length = upperCL p := by
    unfold bidderCandidate
    have hlen : (p ++ t).length -
        ((deleteChar '.' (underJoin (cs "ext. cost"))).length + 1) = p.length := by
      simp only [List.length_append, htl,
        show (deleteChar '.' (underJoin (cs "ext. cost"))).length = 8 from rfl]
      omega
    rw [hlen, List.take_left' rfl, rstripChar_eq_self '_' p hU']
  have hbranchE : compoundSynExt (p ++ t) = some (upperCL p, Field.ext_price) := by
    simp only [compoundSynExt, htest, hfindE, hbc]
  have hcand : candTruthy (some (upperCL p, Field.ext_price)) = true := by
    cases p with
    | nil => exact absurd rfl hne
    | cons a q => rfl
  have hcc : cellCompound (p ++ t) = some (upperCL p, Field.ext_price) := by
    unfold cellCompound
    rw [hUnone, hbranchE, hcand]
    rfl
  have hWall : ∀ ch ∈ p ++ t, ch.isWhitespace = false := by
    intro ch hch
    rcases List.mem_append.mp hch with hp | htm
    · exact hWp ch hp
    · apply ws_false_of_lower
      have hmem : ch.toLower ∈ lowerCL t := List.mem_map.mpr ⟨ch, htm, rfl⟩
      rw [ht] at hmem
      exact (by decide : ∀ x ∈ cs "_ext_cost", x.isWhitespace = false) _ hmem
  exact ⟨hcc, parse_format_b_single (p ++ t) (upperCL p) Field.ext_price
    (trimCL_eq_self _ hWall) hcc⟩

/-- C4 case `_extended_price`: any cell `p ++ t` with separator-free non-empty
prefix `p` and tail lowercasing to `_extended_price` is extracted as bidder
`upper(p)` with role `ext_price`. -/
theorem c4case_extended_price (p t : List Char)
    (hne : p ≠ [])
    (hU : '_' ∉ lowerCL p) (hSp : ' ' ∉ lowerCL p) (hD : '.' ∉ lowerCL p)
    (hWp : ∀ ch ∈ p, ch.isWhitespace = false)
    (ht : lowerCL t = cs "_extended_price") :
    cellCompound (p ++ t) = some (upperCL p, Field.ext_price) ∧
    parse_format_b [Cell.str (p ++ t)] =
      ({}, [(upperCL p, BCols.set {} Field.ext_price 0)]) := by
  have hU' : '_' ∉ p := not_mem_of_not_mem_lower '_' (by decide) p hU
  have hlow : lowerCL (p ++ t) = lowerCL p ++ cs "_extended_price" := by
    unfold lowerCL at ht ⊢
    rw [List.map_append, ht]
  have htl : t.length = 15 := by
    have h := congrArg List.length ht
    rw [show (cs "_extended_price").length = 15 from rfl] at h
    simpa [lowerCL] using h
  have u1 : unitSynHit (lowerCL p ++ cs "_extended_price") (cs "unit price") = false :=
    unitSynHit_append _ _ _ false (by decide) (by decide) (by decide)
  have u2 : unitSynHit (lowerCL p ++ cs "_extended_price") (cs "unit cost") = false :=
    unitSynHit_append _ _ _ false (by decide) (by decide) (by decide)
  have u3 : unitSynHit (lowerCL p ++ cs "_extended_price") (cs "unit_price") = false :=
    unitSynHit_append _ _ _ false (by decide) (by decide) (by decide)
  have u4 : unitSynHit (lowerCL p ++ cs "_extended_price") (cs "unit_cost") = false :=
    unitSynHit_append _ _ _ false (by decide) (by decide) (by decide)
  have u5 : unitSynHit (lowerCL p ++ cs "_extended_price") (cs "unitprice") = false :=
    unitSynHit_append _ _ _ false (by decide) (by decide) (by decide)
  have hfindU : UNIT_PRICE_SYNONYMS.find? (fun syn =>
      unitSynHit (lowerCL p ++ cs "_extended_price") syn) = Option.none := by
    simp only [show UNIT_PRICE_SYNONYMS = [cs "unit price", cs "unit cost", cs "unit_price",
      cs "unit_cost", cs "unitprice"] from rfl, List.find?, u1, u2, u3, u4, u5]
  have hUnone : compoundSynUnit (p ++ t) = Option.none := by
    simp only [compoundSynUnit, hlow, hfindU]
  have htest : replaceChar ' ' '_' (deleteChar '.' (lowerCL (p ++ t))) =
      lowerCL p ++ cs "_extended_price" := by
    rw [hlow]
    unfold deleteChar
    rw [List.filter_append]
    rw [show (cs "_extended_price").filter (fun c => c ≠ '.') = cs "_extended_price" from by decide]
    rw [show (lowerCL p).filter (fun c => c ≠ '.') = lowerCL p from
      deleteChar_eq_self '.' (lowerCL p) hD]
    unfold replaceChar
    rw [List.map_append]
    rw [show (cs "_extended_price").map (fun c => if c = ' ' then '_' else c) = cs "_extended_price"
      from by decide]
    rw [show (lowerCL p).map (fun c => if c = ' ' then '_' else c) = lowerCL p from
      replaceChar_eq_self ' ' '_' (lowerCL p) hSp]
  have e1 : extSynHit (lowerCL p ++ cs "_extended_price") (cs "total price") = false :=
    extSynHit_append _ _ _ false (by decide) (by decide)
  have e2 : extSynHit (lowerCL p ++ cs "_extended_price") (cs "ext. price") = false :=
    extSynHit_append _ _ _ false (by decide) (by decide)
  have e3 : extSynHit (lowerCL p ++ cs "_extended_price") (cs "ext price") = false :=
    extSynHit_append _ _ _ false (by decide) (by decide)
  have e4 : extSynHit (lowerCL p ++ cs "_extended_price") (cs "extended price") = true :=
    extSynHit_append _ _ _ true (by decide) (by decide)
  have hfindE : EXT_PRICE_SYNONYMS.find? (fun syn =>
      extSynHit (lowerCL p ++ cs "_extended_price") syn) = some (cs "extended price") := by
    simp only [show EXT_PRICE_SYNONYMS = [cs "total price", cs "ext. price", cs "ext price",
      cs "extended price", cs "ext. cost", cs "ext cost", cs "extended cost", cs "total_price",
      cs "ext_price", cs "ext_cost", cs "totalprice", cs "extprice"] from rfl,
      List.find?, e1, e2, e3, e4]
  have hbc : bidderCandidate (p ++ t)
      (deleteChar '.' (underJoin (cs "extended price"))).length = upperCL p := by
    unfold bidderCandidate
    have hlen : (p ++ t).length -
        ((deleteChar '.' (underJoin (cs "extended price"))).length + 1) = p.length := by
      simp only [List.length_append, htl,
        show (deleteChar '.' (underJoin (cs "extended price"))).length = 14 from rfl]
      omega
    rw [hlen, List.take_left' rfl, rstripChar_eq_self '_' p hU']
  have hbranchE : compoundSynExt (p ++ t) = some (upperCL p, Field.ext_price) := by
    simp only [compoundSynExt, htest, hfindE, hbc]
  have hcand : candTruthy (some (upperCL p, Field.ext_price)) = true := by
    cases p with
    | nil => exact absurd rfl hne
    | cons a q => rfl
  have hcc : cellCompound (p ++ t) = some (upperCL p, Field.ext_price) := by
    unfold cellCompound
    rw [hUnone, hbranchE, hcand]
    rfl
  have hWall : ∀ ch ∈ p ++ t, ch.isWhitespace = false := by
    intro ch hch
    rcases List.mem_append.mp hch with hp | htm
    · exact hWp ch hp
    · apply ws_false_of_lower
      have hmem : ch.toLower ∈ lowerCL t := List.mem_map.mpr ⟨ch, htm, rfl⟩
      rw [ht] at hmem
      exact (by decide : ∀ x ∈ cs "_extended_price", x.isWhitespace = false) _ hmem
  exact ⟨hcc, parse_format_b_single (p ++ t) (upperCL p) Field.ext_price
    (trimCL_eq_self _ hWall) hcc⟩

/-- C4 case `_extended_cost`: any cell `p ++ t` with separator-free non-empty
prefix `p` and tail lowercasing to `_extended_cost` is extracted as bidder
`upper(p)` with role `ext_price`. -/
theorem c4case_extended_cost (p t : List Char)
    (hne : p ≠ [])
    (hU : '_' ∉ lowerCL p) (hSp : ' ' ∉ lowerCL p) (hD : '.' ∉ lowerCL p)
    (hWp : ∀ ch ∈ p, ch.isWhitespace = false)
    (ht : lowerCL t = cs "_extended_cost") :
    cellCompound (p ++ t) = some (upperCL p, Field.ext_price) ∧
    parse_format_b [Cell.str (p ++ t)] =
      ({}, [(upperCL p, BCols.set {} Field.ext_price 0)]) := by
  have hU' : '_' ∉ p := not_mem_of_not_mem_lower '_' (by decide) p hU
  have hlow : lowerCL (p ++ t) = lowerCL p ++ cs "_extended_cost" := by
    unfold lowerCL at ht ⊢
    rw [List.map_append, ht]
  have htl : t.length = 14 := by
    have h := congrArg List.length ht
    rw [show (cs "_extended_cost").length = 14 from rfl] at h
    simpa [lowerCL] using h
  have u1 : unitSynHit (lowerCL p ++ cs "_extended_cost") (cs "unit price") = false :=
    unitSynHit_append _ _ _ false (by decide) (by decide) (by decide)
  have u2 : unitSynHit (lowerCL p ++ cs "_extended_cost") (cs "unit cost") = false :=
    unitSynHit_append _ _ _ false (by decide) (by decide) (by decide)
  have u3 : unitSynHit (lowerCL p ++ cs "_extended_cost") (cs "unit_price") = false :=
    unitSynHit_append _ _ _ false (by decide) (by decide) (by decide)
  have u4 : unitSynHit (lowerCL p ++ cs "_extended_cost") (cs "unit_cost") = false :=
    unitSynHit_append _ _ _ false (by decide) (by decide) (by decide)
  have u5 : unitSynHit (lowerCL p ++ cs "_extended_cost") (cs "unitprice") = false :=
    unitSynHit_append _ _ _ false (by decide) (by decide) (by decide)
  have hfindU : UNIT_PRICE_SYNONYMS.find? (fun syn =>
      unitSynHit (lowerCL p ++ cs "_extended_cost") syn) = Option.none := by
    simp only [show UNIT_PRICE_SYNONYMS = [cs "unit price", cs "unit cost", cs "unit_price",
      cs "unit_cost", cs "unitprice"] from rfl, List.find?, u1, u2, u3, u4, u5]
  have hUnone : compoundSynUnit (p ++ t) = Option.none := by
    simp only [compoundSynUnit, hlow, hfindU]
  have htest : replaceChar ' ' '_' (deleteChar '.' (lowerCL (p ++ t))) =
      lowerCL p ++ cs "_extended_cost" := by
    rw [hlow]
    unfold deleteChar
    rw [List.filter_append]
    rw [show (cs "_extended_cost").filter (fun c => c ≠ '.') = cs "_extended_cost" from by decide]
    rw [show (lowerCL p).filter (fun c => c ≠ '.') = lowerCL p from
      deleteChar_eq_self '.' (lowerCL p) hD]
    unfold replaceChar
    rw [List.map_append]
    rw [show (cs "_extended_cost").map (fun c => if c = ' ' then '_' else c) = cs "_extended_cost"
      from by decide]
    rw [show (lowerCL p).map (fun c => if c = ' ' then '_' else c) = lowerCL p from
      replaceChar_eq_self ' ' '_' (lowerCL p) hSp]
  have e1 : extSynHit (lowerCL p ++ cs "_extended_cost") (cs "total price") = false :=
    extSynHit_append _ _ _ false (by decide) (by decide)
  have e2 : extSynHit (lowerCL p ++ cs "_extended_cost") (cs "ext. price") = false :=
    extSynHit_append _ _ _ false (by decide) (by decide)
  have e3 : extSynHit (lowerCL p ++ cs "_extended_cost") (cs "ext price") = false :=
    extSynHit_append _ _ _ false (by decide) (by decide)
  have e4 : extSynHit (lowerCL p ++ cs "_extended_cost") (cs "extended price") = false :=
    extSynHit_append _ _ _ false (by decide) (by decide)
  have e5 : extSynHit (lowerCL p ++ cs "_extended_cost") (cs "ext. cost") = false :=
    extSynHit_append _ _ _ false (by decide) (by decide)
  have e6 : extSynHit (lowerCL p ++ cs "_extended_cost") (cs "ext cost") = false :=
    extSynHit_append _ _ _ false (by decide) (by decide)
  have e7 : extSynHit (lowerCL p ++ cs "_extended_cost") (cs "extended cost") = true :=
    extSynHit_append _ _ _ true (by decide) (by decide)
  have hfindE : EXT_PRICE_SYNONYMS.find? (fun syn =>
      extSynHit (lowerCL p ++ cs "_extended_cost") syn) = some (cs "extended cost") := by
    simp only [show EXT_PRICE_SYNONYMS = [cs "total price", cs "ext. price", cs "ext price",
      cs "extended price", cs "ext. cost", cs "ext cost", cs "extended cost", cs "total_price",
      cs "ext_price", cs "ext_cost", cs "totalprice", cs "extprice"] from rfl,
      List.find?, e1, e2, e3, e4, e5, e6, e7]
  have hbc : bidderCandidate (p ++ t)
      (deleteChar '.' (underJoin (cs "extended cost"))).length = upperCL p := by
    unfold bidderCandidate
    have hlen : (p ++ t).length -
        ((deleteChar '.' (underJoin (cs "extended cost"))).length + 1) = p.length := by
      simp only [List.length_append, htl,
        show (deleteChar '.' (underJoin (cs "extended cost"))).length = 13 from rfl]
      omega
    rw [hlen, List.take_left' rfl, rstripChar_eq_self '_' p hU']
  have hbranchE : compoundSynExt (p ++ t) = some (upperCL p, Field.ext_price) := by
    simp only [compoundSynExt, htest, hfindE, hbc]
  have hcand : candTruthy (some (upperCL p, Field.ext_price)) = true := by
    cases p with
    | nil => exact absurd rfl hne
    | cons a q => rfl
  have hcc : cellCompound (p ++ t) = some (upperCL p, Field.ext_price) := by
    unfold cellCompound
    rw [hUnone, hbranchE, hcand]
    rfl
  have hWall : ∀ ch ∈ p ++ t, ch.isWhitespace = false := by
    intro ch hch
    rcases List.mem_append.mp hch with hp | htm
    · exact hWp ch hp
    · apply ws_false_of_lower
      have hmem : ch.toLower ∈ lowerCL t := List.mem_map.mpr ⟨ch, htm, rfl⟩
      rw [ht] at hmem
      exact (by decide : ∀ x ∈ cs "_extended_cost", x.isWhitespace = false) _ hmem
  exact ⟨hcc, parse_format_b_single (p ++ t) (upperCL p) Field.ext_price
    (trimCL_eq_self _ hWall) hcc⟩
/-- C4 counterexample to the unamended claim: the cell `"ACME UNITPRICE"` is a
recognized price suffix (`"unitprice"` is in `UNIT_PRICE_SYNONYMS`) preceded
by the non-empty prefix `"ACME "`, yet the compound extractor recovers no
bidder at all (the synonym branches need an underscore separator, the regex
branch needs a literal `_`, and the space branch needs at least three words),
so `_parse_format_b` leaves the bidder map empty. -/
theorem c4_counterexample :
    cellCompound (cs "ACME UNITPRICE") = Option.none ∧
    lowerCL (cs "UNITPRICE") ∈ UNIT_PRICE_SYNONYMS ∧
    cs "ACME UNITPRICE" = cs "ACME " ++ cs "UNITPRICE" ∧
    cs "ACME " ≠ [] ∧
    (parse_format_b [Cell.str (cs "ACME UNITPRICE")]).2 = [] := by decide

/-- C4 (amended): for every cell of the form `p ++ t` where the tail `t`
lowercases to an underscore followed by a recognized underscore-joined price
suffix, and the prefix `p` is non-empty, whitespace-free and contains no
underscore, space or dot, the compound extractor of `_parse_format_b`
recovers the bidder name `upper(p)` and assigns the role the vocabulary
determines — `ext_price` exactly when the suffix contains `"total"` or
`"ext"`, else `unit_price` — and `_parse_format_b` on a one-cell header row
records exactly that bidder with that role at the cell's column. -/
theorem c4_amended (p t S : List Char) (fld : Field)
    (hmem : (S, fld) ∈ COMPOUND_UNDERSCORE_SUFFIXES)
    (hne : p ≠ [])
    (hU : '_' ∉ lowerCL p) (hSp : ' ' ∉ lowerCL p) (hD : '.' ∉ lowerCL p)
    (hWp : ∀ ch ∈ p, ch.isWhitespace = false)
    (ht : lowerCL t = '_' :: S) :
    cellCompound (p ++ t) = some (upperCL p, fld) ∧
    parse_format_b [Cell.str (p ++ t)] = ({}, [(upperCL p, BCols.set {} fld 0)]) ∧
    (fld = Field.ext_price ↔
      (containsCL (cs "total") S || containsCL (cs "ext") S) = true) := by
  simp only [COMPOUND_UNDERSCORE_SUFFIXES, List.mem_cons, List.not_mem_nil,
    or_false] at hmem
  rcases hmem with h | h | h | h | h | h | h | h | h | h
  · injection h with hS hf; subst hS; subst hf
    obtain ⟨h1, h2⟩ := c4case_unit_price p t hne hU hSp hD hWp ht
    exact ⟨h1, h2, by decide⟩
  · injection h with hS hf; subst hS; subst hf
    obtain ⟨h1, h2⟩ := c4case_unit_cost p t hne hU hSp hD hWp ht
    exact ⟨h1, h2, by decide⟩
  · injection h with hS hf; subst hS; subst hf
    obtain ⟨h1, h2⟩ := c4case_unitprice p t hne hU hSp hD hWp ht
    exact ⟨h1, h2, by decide⟩
  · injection h with hS hf; subst hS; subst hf
    obtain ⟨h1, h2⟩ := c4case_total_price p t hne hU hSp hD hWp ht
    exact ⟨h1, h2, by decide⟩
  · injection h with hS hf; subst hS; subst hf
    obtain ⟨h1, h2⟩ := c4case_totalprice p t hne hU hSp hD hWp ht
    exact ⟨h1, h2, by decide⟩
  · injection h with hS hf; subst hS; subst hf
    obtain ⟨h1, h2⟩ := c4case_ext_price p t hne hU hSp hD hWp ht
    exact ⟨h1, h2, by decide⟩
  · injection h with hS hf; subst hS; subst hf
    obtain ⟨h1, h2⟩ := c4case_extprice p t hne hU hSp hD hWp ht
    exact ⟨h1, h2, by decide⟩
  · injection h with hS hf; subst hS; subst hf
    obtain ⟨h1, h2⟩ := c4case_ext_cost p t hne hU hSp hD hWp ht
    exact ⟨h1, h2, by decide⟩
  · injection h with hS hf; subst hS; subst hf
    obtain ⟨h1, h2⟩ := c4case_extended_price p t hne hU hSp hD hWp ht
    exact ⟨h1, h2, by decide⟩
  · injection h with hS hf; subst hS; subst hf
    obtain ⟨h1, h2⟩ := c4case_extended_cost p t hne hU hSp hD hWp ht
    exact ⟨h1, h2, by decide⟩

/-- Witness for C4 (amended) at the concrete cell `"ACME_UNIT_PRICE"`. -/
theorem c4_amended_witness :
    cellCompound (cs "ACME" ++ cs "_UNIT_PRICE") =
      some (upperCL (cs "ACME"), Field.unit_price) ∧
    parse_format_b [Cell.str (cs "ACME" ++ cs "_UNIT_PRICE")] =
      ({}, [(upperCL (cs "ACME"), BCols.set {} Field.unit_price 0)]) ∧
    (Field.unit_price = Field.ext_price ↔
      (containsCL (cs "total") (cs "unit_price") ||
        containsCL (cs "ext") (cs "unit_price")) = true) :=
  c4_amended (cs "ACME") (cs "_UNIT_PRICE") (cs "unit_price") Field.unit_price
    (by decide) (by decide) (by decide) (by decide) (by decide) (by decide) (by decide)

end RFQ
